import Mathlib

/-!
# proglog: record store and offset index

A shallow embedding of `internal/log/store.go` and `internal/log/index.go`.

* Bytes are `Fin 256`; a Go `[]byte` is a `List Byte`.
* Go's unsigned 64-bit and 32-bit arithmetic is `Nat` arithmetic reduced
  modulo `2^64` and `2^32`; `int64` values are `Int`.
* An operation that mutates its receiver returns the new receiver state next
  to its Go results.  A Go run-time panic (a slice expression out of range, a
  `make` with an impossible length) is the `panic` outcome.
* The operating system is part of the model only as far as the code observes
  it: a store file is a byte sequence that grows at its end and a number of
  bytes the device still accepts; an index file is a byte sequence with a
  plan of injected failures and a record of the calls made on it.
-/

namespace Proglog

/-! ## Machine integers and bytes -/

abbrev Byte := Fin 256

/-- Conversion `byte(x)`: the low eight bits. -/
def byte (x : Nat) : Byte := ⟨x % 256, Nat.mod_lt x (by decide)⟩

/-- Value of a `uint64` expression: reduction modulo `2^64`. -/
def u64 (x : Nat) : Nat := x % 18446744073709551616

/-- Value of a `uint32` expression: reduction modulo `2^32`. -/
def u32 (x : Nat) : Nat := x % 4294967296

/-- Conversion `uint32(x)` of a signed `x`: two's complement truncation. -/
def u32OfInt (x : Int) : Nat := (x % 4294967296).toNat

/-- Conversion `int64(x)` of an unsigned 64-bit `x`: values from `2^63` on
become negative. -/
def toInt64 (x : Nat) : Int :=
  if u64 x < 9223372036854775808 then (u64 x : Int)
  else (u64 x : Int) - 18446744073709551616

/-- Largest value of a Go `int` and of a file offset: `2^63 - 1`. -/
def maxInt : Nat := 9223372036854775807

/-- Error values the code returns or passes on. -/
inductive Err where
  | eof
  | negativeOffset
  | noSpace
  | invalidArgument
  | closed
  | fault (code : Nat)
  deriving DecidableEq, Repr

/-- Result of a call that can also stop the program with a run-time panic. -/
inductive Outcome (α : Type) where
  | ok (a : α)
  | error (e : Err)
  | panic
  deriving DecidableEq, Repr

/-! ## `encoding/binary` big-endian codec (`enc = binary.BigEndian`) -/

/-- Bytes that `enc.PutUint32(b, v)` puts into `b[0..4)`. -/
def putUint32 (v : Nat) : List Byte :=
  [byte (v / 16777216), byte (v / 65536), byte (v / 256), byte v]

/-- Bytes that `enc.PutUint64(b, v)` puts into `b[0..8)`. -/
def putUint64 (v : Nat) : List Byte :=
  [byte (v / 72057594037927936), byte (v / 281474976710656),
   byte (v / 1099511627776), byte (v / 4294967296),
   byte (v / 16777216), byte (v / 65536), byte (v / 256), byte v]

/-- Value of `enc.Uint32(b)` for a slice holding at least four bytes (the
bitwise or of the shifted bytes is their sum, the bit ranges being disjoint). -/
def uint32 : List Byte → Nat
  | b0 :: b1 :: b2 :: b3 :: _ =>
      b0.val * 16777216 + b1.val * 65536 + b2.val * 256 + b3.val
  | _ => 0

/-- Value of `enc.Uint64(b)` for a slice holding at least eight bytes. -/
def uint64 : List Byte → Nat
  | b0 :: b1 :: b2 :: b3 :: b4 :: b5 :: b6 :: b7 :: _ =>
      b0.val * 72057594037927936 + b1.val * 281474976710656
        + b2.val * 1099511627776 + b3.val * 4294967296
        + b4.val * 16777216 + b5.val * 65536 + b6.val * 256 + b7.val
  | _ => 0

/-- Slice expression `m[lo:hi]`: `none` stands for the run-time panic Go
raises unless `lo ≤ hi ≤ len(m)`. -/
def slice (m : List Byte) (lo hi : Nat) : Option (List Byte) :=
  if lo ≤ hi ∧ hi ≤ m.length then some ((m.drop lo).take (hi - lo)) else none

/-- Effect on `m` of storing the bytes `bs` through a slice of `m` that
starts at `lo`. -/
def splice (m : List Byte) (lo : Nat) (bs : List Byte) : List Byte :=
  m.take lo ++ bs ++ m.drop (lo + bs.length)

/-! ## Offset index (`index.go`) -/

def offWidth : Nat := 4
def posWidth : Nat := 8
def entWidth : Nat := offWidth + posWidth

/-- Calls the index makes on its file while closing. -/
inductive Call where
  | msync
  | fsync
  | ftruncate (n : Int)
  | close
  deriving DecidableEq, Repr

/-- Failures injected into the calls made on an index file. -/
structure Faults where
  stat : Option Err := none
  truncate : Option Err := none
  mmap : Option Err := none
  msync : Option Err := none
  fsync : Option Err := none
  close : Option Err := none
  deriving DecidableEq, Repr

/-- The file behind an index: its bytes, whether the handle is open, the
teardown calls made on it so far (oldest first) and the injected failures. -/
structure IndexFile where
  data : List Byte
  isOpen : Bool := true
  calls : List Call := []
  faults : Faults := {}
  deriving DecidableEq, Repr

/-- Modelled from the spec: the `Config` type is declared outside the given
sources; the index uses only `c.Segment.MaxIndexBytes`, an unsigned 64-bit
"maximum index file size in bytes". -/
structure SegmentConfig where
  MaxIndexBytes : Nat
  deriving DecidableEq, Repr

structure Config where
  Segment : SegmentConfig
  deriving DecidableEq, Repr

structure Index where
  file : IndexFile
  mmap : List Byte
  size : Nat
  deriving DecidableEq, Repr

/-- Bytes of a file after `truncate` to length `n`: cut, or extended with
zero bytes. -/
def truncateBytes (d : List Byte) (n : Nat) : List Byte :=
  d.take n ++ List.replicate (n - d.length) 0

/-- Call `os.Truncate(name, n)`, by path: fails on a negative length or on an
injected failure. -/
def osTruncate (f : IndexFile) (n : Int) : IndexFile × Option Err :=
  if n < 0 then (f, some Err.invalidArgument)
  else
    match f.faults.truncate with
    | some e => (f, some e)
    | none => ({ f with data := truncateBytes f.data n.toNat }, none)

/-- Call `gommap.Map(fd, PROT_READ|PROT_WRITE, MAP_SHARED)`: maps the whole
file behind an open handle; mapping a file of length zero is refused by the
system. -/
def gommapMap (f : IndexFile) : Except Err (List Byte) :=
  if f.isOpen = false then .error Err.closed
  else
    match f.faults.mmap with
    | some e => .error e
    | none => if f.data.length = 0 then .error Err.invalidArgument else .ok f.data

/-- The owner of the index opening the file again (`os.OpenFile`). -/
def IndexFile.Open (f : IndexFile) : IndexFile := { f with isOpen := true }

def newIndex (f : IndexFile) (c : Config) : Except Err Index :=
  match f.faults.stat with
  | some e => .error e
  | none =>
    let size := u64 f.data.length
    match osTruncate f (toInt64 c.Segment.MaxIndexBytes) with
    | (_, some e) => .error e
    | (f1, none) =>
      match gommapMap f1 with
      | .error e => .error e
      | .ok m => .ok { file := f1, mmap := m, size := size }

/-- Call `i.mmap.Sync(gommap.MS_SYNC)`: the mapped bytes reach the file, which
has the length of the mapping for as long as the index is open. -/
def Index.mmapSync (i : Index) : IndexFile × Option Err :=
  let f := { i.file with calls := i.file.calls ++ [Call.msync] }
  match f.faults.msync with
  | some e => (f, some e)
  | none => ({ f with data := i.mmap }, none)

/-- Call `file.Sync()`, through the handle. -/
def IndexFile.Sync (f : IndexFile) : IndexFile × Option Err :=
  let f1 := { f with calls := f.calls ++ [Call.fsync] }
  if f1.isOpen = false then (f1, some Err.closed) else (f1, f1.faults.fsync)

/-- Call `file.Truncate(n)`, through the handle. -/
def IndexFile.Truncate (f : IndexFile) (n : Int) : IndexFile × Option Err :=
  let f1 := { f with calls := f.calls ++ [Call.ftruncate n] }
  if f1.isOpen = false then (f1, some Err.closed) else osTruncate f1 n

/-- Call `file.Close()`. -/
def IndexFile.Close (f : IndexFile) : IndexFile × Option Err :=
  let f1 := { f with calls := f.calls ++ [Call.close] }
  if f1.isOpen = false then (f1, some Err.closed)
  else
    match f1.faults.close with
    | some e => (f1, some e)
    | none => ({ f1 with isOpen := false }, none)

def Index.Close (i : Index) : Index × Option Err :=
  match i.mmapSync with
  | (f1, some e) => ({ i with file := f1 }, some e)
  | (f1, none) =>
    match f1.Sync with
    | (f2, some e) => ({ i with file := f2 }, some e)
    | (f2, none) =>
      match f2.Truncate (toInt64 i.size) with
      | (f3, some e) => ({ i with file := f3 }, some e)
      | (f3, none) =>
        match f3.Close with
        | (f4, r) => ({ i with file := f4 }, r)

def Index.Read (i : Index) (inp : Int) : Outcome (Nat × Nat) :=
  if i.size = 0 then .error Err.eof
  else
    let out :=
      if inp = -1 then u32 (u64 (i.size / entWidth + 18446744073709551615))
      else u32OfInt inp
    let pos := u64 (out * entWidth)
    if i.size < u64 (pos + entWidth) then .error Err.eof
    else
      match slice i.mmap pos (u64 (pos + offWidth)),
            slice i.mmap (u64 (pos + offWidth)) (u64 (pos + entWidth)) with
      | some a, some b => .ok (uint32 a, uint64 b)
      | _, _ => .panic

def Index.Write (i : Index) (off pos : Nat) : Index × Outcome Unit :=
  if i.mmap.length < u64 (i.size + offWidth) then (i, .error Err.eof)
  else
    match slice i.mmap i.size (u64 (i.size + offWidth)) with
    | none => (i, .panic)
    | some _ =>
      let m1 := splice i.mmap i.size (putUint32 off)
      match slice m1 (u64 (i.size + offWidth)) (u64 (i.size + entWidth)) with
      | none => ({ i with mmap := m1 }, .panic)
      | some _ =>
        let m2 := splice m1 (u64 (i.size + offWidth)) (putUint64 pos)
        ({ i with mmap := m2, size := u64 (i.size + entWidth) }, .ok ())

/-- The slot `Read` computes from its argument: the last slot for `-1`, the
argument truncated to 32 bits otherwise. -/
def Index.slot (i : Index) (inp : Int) : Nat :=
  if inp = -1 then u32 (u64 (i.size / entWidth + 18446744073709551615)) else u32OfInt inp

/-- The pair decoded from the twelve bytes of slot `k` of a mapped region. -/
def entryAt (m : List Byte) (k : Nat) : Nat × Nat :=
  (uint32 ((m.drop (k * 12)).take 4), uint64 ((m.drop (k * 12 + 4)).take 8))

/-- On-disk form of a sequence of entries: twelve bytes each, back to back. -/
def encodeEntries : List (Nat × Nat) → List Byte
  | [] => []
  | e :: es => putUint32 e.1 ++ putUint64 e.2 ++ encodeEntries es

/-- A run of writes that all succeed; `none` as soon as one does not. -/
def Index.writeAll (i : Index) : List (Nat × Nat) → Option Index
  | [] => some i
  | e :: es =>
    match i.Write e.1 e.2 with
    | (i1, .ok ()) => i1.writeAll es
    | _ => none

/-- An index over a freshly mapped region of `c` zero bytes. -/
def emptyIndex (c : Nat) : Index :=
  { file := { data := List.replicate c 0 }, mmap := List.replicate c 0, size := 0 }

/-- Error of the truncation step of `Close`: the length `int64(i.size)` is
refused when negative, otherwise the injected failure, if any. -/
def Index.truncateErr (i : Index) : Option Err :=
  if toInt64 i.size < 0 then some Err.invalidArgument else i.file.faults.truncate

/-- The calls `Close` makes when nothing fails, in order. -/
def Index.closeSteps (i : Index) : List Call :=
  [Call.msync, Call.fsync, Call.ftruncate (toInt64 i.size), Call.close]

/-- Number of teardown steps `Close` gets to: it stops at the first one that
fails. -/
def Index.closeReach (i : Index) : Nat :=
  if i.file.faults.msync.isSome then 1
  else if i.file.faults.fsync.isSome then 2
  else if i.truncateErr.isSome then 3
  else 4

/-- An index opened on an empty file with capacity `c.Segment.MaxIndexBytes`,
written to with `es`, closed, and opened again on the same file; `none` when
one of these steps fails. -/
def reopenAfter (c : Config) (es : List (Nat × Nat)) : Option Index :=
  match newIndex { data := [] } c with
  | .ok i0 =>
    match i0.writeAll es with
    | some i =>
      match i.Close with
      | (i1, none) =>
        match newIndex i1.file.Open c with
        | .ok i2 => some i2
        | .error _ => none
      | (_, some _) => none
    | none => none
  | .error _ => none

/-- The index of capacity 12 holding the single entry `(7, 9)`. -/
def oneEntry : Index := ((emptyIndex 12).Write 7 9).1

/-- The index of capacity `c` after `Write(0, 0)`, `Write(1, 13)`,
`Write(2, 26)`. -/
def threeEntries (c : Nat) : Index :=
  ((((emptyIndex c).Write 0 0).1.Write 1 13).1.Write 2 26).1

/-- Three entries in a region of 48 bytes, over a file whose flush fails. -/
def failingFlush : Index :=
  { threeEntries 48 with
    file := { (threeEntries 48).file with faults := { msync := some (Err.fault 5) } } }

/-- An index holding `2^32` entries (all zero bytes) with room for one more. -/
def bigIndex : Index :=
  { file := { data := [] }, mmap := List.replicate 51539607564 0, size := 51539607552 }

/-- A file of 36 bytes that holds the entries `(0, 0)`, `(1, 13)`, `(2, 26)`,
as an orderly close leaves it. -/
def threeEntryFile : IndexFile :=
  { data := encodeEntries [(0, 0), (1, 13), (2, 26)] }

/-- A call on an index. -/
inductive IndexCall where
  | write (off pos : Nat)
  | read (inp : Int)
  deriving DecidableEq, Repr

/-- The index after a call.  `Write` leaves the state it returns, whether it
succeeds, fails or panics; `Read` assigns to no field of the index, so the
index after it is the index before it. -/
def Index.after (i : Index) : IndexCall → Index
  | .write off pos => (i.Write off pos).1
  | .read _ => i

/-- The index after a sequence of calls. -/
def Index.afterAll (i : Index) (cs : List IndexCall) : Index :=
  cs.foldl Index.after i

/-! ## Record store (`store.go`) -/

def lenWidth : Nat := 8

/-- The file behind a store, as the code observes it: the bytes it holds, the
number of further bytes the device accepts before writes fail, and the failure
(if any) of asking for its status.  The handle is opened for appending by the
owner of the store, so every write lands at the end. -/
structure File where
  data : List Byte
  room : Nat
  stat : Option Err := none
  deriving DecidableEq, Repr

/-- Number of bytes the next write can add: what the device accepts, and never
past the largest file offset. -/
def File.accepts (f : File) : Nat := min f.room (maxInt - f.data.length)

/-- Call `f.Write(p)`: the new file state, the number of bytes written and
the error; the error is non-nil exactly when fewer than `len(p)` bytes were
written. -/
def File.Write (f : File) (p : List Byte) : File × Nat × Option Err :=
  if p.length ≤ f.accepts then
    ({ f with data := f.data ++ p, room := f.room - p.length }, p.length, none)
  else
    ({ f with data := f.data ++ p.take f.accepts, room := f.room - f.accepts },
      f.accepts, some Err.noSpace)

/-- Call `f.ReadAt(b, off)`: the buffer afterwards, the number of bytes read
and the error.  A negative offset is refused; an empty buffer is returned at
once; the system refuses a read whose range `[off, off + len(b))` passes the
largest file offset (invalid argument); otherwise bytes are read until the
buffer is full or the file ends, and the end of the file before the buffer is
full is `io.EOF`. -/
def File.ReadAt (f : File) (b : List Byte) (off : Int) : List Byte × Nat × Option Err :=
  if off < 0 then (b, 0, some Err.negativeOffset)
  else if b.length = 0 then (b, 0, none)
  else if maxInt < off.toNat + b.length then (b, 0, some Err.invalidArgument)
  else
    let got := (f.data.drop off.toNat).take b.length
    if got.length < b.length then (got ++ b.drop got.length, got.length, some Err.eof)
    else (got, got.length, none)

/-- Size of the buffer of `bufio.NewWriter`. -/
def defaultBufSize : Nat := 4096

/-- A `bufio.Writer`: the bytes buffered and not yet written (`b.buf[0:b.n]`)
and its sticky error. -/
structure Writer where
  buf : List Byte := []
  err : Option Err := none
  deriving DecidableEq, Repr

def Writer.Available (b : Writer) : Nat := defaultBufSize - b.buf.length

def Writer.Buffered (b : Writer) : Nat := b.buf.length

/-- Method `(*bufio.Writer).Flush` over the file `f`. -/
def Writer.Flush (b : Writer) (f : File) : Writer × File × Option Err :=
  match b.err with
  | some e => (b, f, some e)
  | none =>
    if b.buf.length = 0 then (b, f, none)
    else
      match f.Write b.buf with
      | (f1, n, some e) => ({ buf := b.buf.drop n, err := some e }, f1, some e)
      | (f1, _, none) => ({ buf := [], err := none }, f1, none)

/-- The loop of `(*bufio.Writer).Write`: while `p` does not fit into the
buffer and no error is pending, either write `p` to the file directly (empty
buffer) or fill the buffer and flush it.  The first argument bounds the number
of iterations; the result is the writer, the file, the rest of `p` and the
count of bytes consumed. -/
def Writer.writeLoop : Nat → Writer → File → List Byte → Nat →
    Writer × File × List Byte × Nat
  | 0, b, f, p, nn => (b, f, p, nn)
  | fuel + 1, b, f, p, nn =>
    if b.Available < p.length ∧ b.err = none then
      if b.Buffered = 0 then
        match f.Write p with
        | (f1, n, e) => Writer.writeLoop fuel { b with err := e } f1 (p.drop n) (nn + n)
      else
        let n := min b.Available p.length
        match Writer.Flush { b with buf := b.buf ++ p.take n } f with
        | (b1, f1, _) => Writer.writeLoop fuel b1 f1 (p.drop n) (nn + n)
    else (b, f, p, nn)

/-- Method `(*bufio.Writer).Write` over the file `f`: the loop (which ends
within two iterations, see `writeLoop_exit`), then the copy of what is left
into the buffer. -/
def Writer.Write (b : Writer) (f : File) (p : List Byte) :
    Writer × File × Nat × Option Err :=
  match Writer.writeLoop 2 b f p 0 with
  | (b1, f1, p1, nn) =>
    match b1.err with
    | some e => (b1, f1, nn, some e)
    | none =>
      let n := min b1.Available p1.length
      ({ b1 with buf := b1.buf ++ p1.take n }, f1, nn + n, none)

/-- Call `binary.Write(w, enc, v)` for a `uint64` value `v`. -/
def binaryWrite (b : Writer) (f : File) (v : Nat) : Writer × File × Option Err :=
  match b.Write f (putUint64 v) with
  | (b1, f1, _, e) => (b1, f1, e)

structure Store where
  file : File
  buf : Writer
  size : Nat
  deriving DecidableEq, Repr

def newStore (f : File) : Except Err Store :=
  match f.stat with
  | some e => .error e
  | none => .ok { file := f, size := u64 f.data.length, buf := {} }

/-- Method `Append`: the store afterwards and the results `(n, pos, err)`. -/
def Store.Append (s : Store) (p : List Byte) : Store × Nat × Nat × Option Err :=
  let pos := s.size
  match binaryWrite s.buf s.file (u64 p.length) with
  | (b1, f1, some e) => ({ s with buf := b1, file := f1 }, 0, 0, some e)
  | (b1, f1, none) =>
    match b1.Write f1 p with
    | (b2, f2, _, some e) => ({ s with buf := b2, file := f2 }, 0, 0, some e)
    | (b2, f2, w, none) =>
      let w := w + lenWidth
      ({ file := f2, buf := b2, size := u64 (s.size + u64 w) }, u64 w, pos, none)

/-- Method `Read`: the store afterwards and the record, an error, or the
panic of `make` on a length above the largest `int`.  Below that length the
allocation is taken to succeed: the lower limit of the Go runtime and the
exhaustion of memory are not part of the model. -/
def Store.Read (s : Store) (pos : Nat) : Store × Outcome (List Byte) :=
  match s.buf.Flush s.file with
  | (b1, f1, some e) => ({ s with buf := b1, file := f1 }, .error e)
  | (b1, f1, none) =>
    match f1.ReadAt (List.replicate lenWidth 0) (toInt64 pos) with
    | (_, _, some e) => ({ s with buf := b1, file := f1 }, .error e)
    | (size, _, none) =>
      if maxInt < uint64 size then ({ s with buf := b1, file := f1 }, .panic)
      else
        match f1.ReadAt (List.replicate (uint64 size) 0) (toInt64 (u64 (pos + lenWidth))) with
        | (_, _, some e) => ({ s with buf := b1, file := f1 }, .error e)
        | (b, _, none) => ({ s with buf := b1, file := f1 }, .ok b)

/-- Method `ReadAt`: the store and the buffer afterwards, the count of bytes
read and the error. -/
def Store.ReadAt (s : Store) (p : List Byte) (off : Int) :
    Store × List Byte × Nat × Option Err :=
  match s.buf.Flush s.file with
  | (b1, f1, some e) => ({ s with buf := b1, file := f1 }, p, 0, some e)
  | (b1, f1, none) =>
    match f1.ReadAt p off with
    | (p1, n, e) => ({ s with buf := b1, file := f1 }, p1, n, e)

/-- The bytes of a store in append order: what the file holds followed by
what is still buffered. -/
def Store.stream (s : Store) : List Byte := s.file.data ++ s.buf.buf

/-- State of a store on which no write has failed: no pending error, the
buffer within its size, the file within the largest offset, and `size`
counting the bytes of the file and of the buffer. -/
def Store.Inv (s : Store) : Prop :=
  s.buf.err = none ∧ s.buf.buf.length ≤ defaultBufSize ∧ s.file.data.length ≤ maxInt ∧
    s.size = s.file.data.length + s.buf.buf.length

instance (s : Store) : Decidable s.Inv := by
  unfold Store.Inv
  infer_instance

/-- On-disk form of one record: the 8-byte big-endian length, then the
payload. -/
def frame (p : List Byte) : List Byte := putUint64 p.length ++ p

/-- On-disk form of a sequence of records, in append order. -/
def encodeRecords : List (List Byte) → List Byte
  | [] => []
  | p :: ps => frame p ++ encodeRecords ps

/-- A run of appends that all succeed; `none` as soon as one returns an
error. -/
def Store.appendAll (s : Store) : List (List Byte) → Option Store
  | [] => some s
  | p :: ps =>
    match s.Append p with
    | (s1, _, _, none) => s1.appendAll ps
    | (_, _, _, some _) => none

/-- A call on a store. -/
inductive StoreCall where
  | append (p : List Byte)
  | read (pos : Nat)
  | readAt (b : List Byte) (off : Int)
  deriving DecidableEq, Repr

/-- The store after a call, whatever the call returned. -/
def Store.after (s : Store) : StoreCall → Store
  | .append p => (s.Append p).1
  | .read pos => (s.Read pos).1
  | .readAt b off => (s.ReadAt b off).1

/-- The store after a sequence of calls. -/
def Store.afterAll (s : Store) (cs : List StoreCall) : Store :=
  cs.foldl Store.after s

/-- Whether a call is a `Read` or a `ReadAt`. -/
def StoreCall.isRead : StoreCall → Bool
  | .append _ => false
  | .read _ => true
  | .readAt _ _ => true

/-- An empty store file on a device with room for 1000 bytes. -/
def freshFile : File := { data := [], room := 1000 }

/-- The store that `newStore` builds on `freshFile`. -/
def freshStore : Store := { file := freshFile, buf := {}, size := 0 }

/-- The payload "hello". -/
def hello : List Byte := [104, 101, 108, 108, 111]

/-- The payload "world". -/
def world : List Byte := [119, 111, 114, 108, 100]

/-- An empty store file on a device that accepts nothing more. -/
def fullFile : File := { data := [], room := 0 }

/-- The store that `newStore` builds on `fullFile`, after `Append("hello")`:
the 13 bytes of the record are in the buffer. -/
def bufferedOnFullDevice : Store :=
  (Store.Append { file := fullFile, buf := {}, size := 0 } hello).1

/-- A store on an empty file whose device accepts nothing more, after
`Append("hello")`, which only fills the buffer, and `Read(0)`, whose flush
fails. -/
def fullDeviceStore : Store :=
  ((Store.Append { file := { data := [], room := 0 }, buf := {}, size := 0 } hello).1.Read 0).1

/-! ## Lemmas: machine integers, codec and slices -/

theorem u64_of_lt {x : Nat} (h : x < 18446744073709551616) : u64 x = x :=
  Nat.mod_eq_of_lt h
theorem u64_le (x : Nat) : u64 x ≤ x := Nat.mod_le _ _
theorem slice_of_le {m : List Byte} {lo hi : Nat} (h1 : lo ≤ hi) (h2 : hi ≤ m.length) :
    slice m lo hi = some ((m.drop lo).take (hi - lo)) := by
  simp [slice, h1, h2]
theorem slice_ne_none {m : List Byte} {lo hi : Nat}
    (h : slice m lo hi ≠ none) : lo ≤ hi ∧ hi ≤ m.length := by
  unfold slice at h
  split at h
  · assumption
  · exact absurd rfl h
theorem length_splice {m : List Byte} {lo : Nat} {bs : List Byte}
    (h : lo + bs.length ≤ m.length) : (splice m lo bs).length = m.length := by
  simp only [splice, List.length_append, List.length_take, List.length_drop]
  omega
theorem length_putUint32 (v : Nat) : (putUint32 v).length = 4 := rfl
theorem length_putUint64 (v : Nat) : (putUint64 v).length = 8 := rfl
theorem uint32_putUint32 {v : Nat} (h : v < 4294967296) : uint32 (putUint32 v) = v := by
  simp only [uint32, putUint32, byte]
  omega
theorem uint64_putUint64 {v : Nat} (h : v < 18446744073709551616) :
    uint64 (putUint64 v) = v := by
  simp only [uint64, putUint64, byte]
  omega
theorem splice_entry {m : List Byte} {s : Nat} (a b : List Byte)
    (ha : a.length = 4) (hb : b.length = 8) (h : s + 12 ≤ m.length) :
    splice (splice m s a) (s + 4) b = m.take s ++ (a ++ b) ++ m.drop (s + 12) := by
  have h1 : (m.take s ++ a).length = s + 4 := by
    simp only [List.length_append, List.length_take, ha]; omega
  have h2 : (m.take s ++ a ++ m.drop (s + 4)).take (s + 4) = m.take s ++ a :=
    List.take_left' h1
  have h3 : (m.take s ++ a ++ m.drop (s + 4)).drop (s + 4 + 8) = m.drop (s + 12) := by
    have := @List.drop_append _ (m.take s ++ a) (m.drop (s + 4)) 8
    rw [h1] at this
    rw [this, List.drop_drop]
  unfold splice
  rw [ha, hb, h2, h3]
  simp only [List.append_assoc]

/-- A write into an index with room for a whole entry. -/
theorem Index.Write_of_room (i : Index) (off pos : Nat)
    (h : i.size + 12 ≤ i.mmap.length) (hs : i.size + 12 < 18446744073709551616) :
    i.Write off pos =
      ({ i with
          mmap := i.mmap.take i.size ++ (putUint32 off ++ putUint64 pos)
                    ++ i.mmap.drop (i.size + 12),
          size := i.size + 12 }, .ok ()) := by
  have e4 : u64 (i.size + offWidth) = i.size + 4 := u64_of_lt (by simp only [offWidth]; omega)
  have e12 : u64 (i.size + entWidth) = i.size + 12 :=
    u64_of_lt (by simp only [entWidth, offWidth, posWidth]; omega)
  have hl : (splice i.mmap i.size (putUint32 off)).length = i.mmap.length :=
    length_splice (by rw [length_putUint32]; omega)
  unfold Index.Write
  rw [e4, e12, if_neg (by omega), slice_of_le (by omega) (by omega)]
  simp only []
  rw [slice_of_le (by omega) (by rw [hl]; omega)]
  simp only []
  rw [splice_entry _ _ (length_putUint32 off) (length_putUint64 pos) h]

/-- A write that succeeds had room for a whole entry, without wrap-around. -/
theorem Index.room_of_Write_ok {i : Index} {off pos : Nat}
    (h : (i.Write off pos).2 = .ok ()) :
    i.size + 12 ≤ i.mmap.length ∧ i.size + 12 < 18446744073709551616 := by
  unfold Index.Write at h
  split at h
  · cases h
  · rename_i hlen
    split at h
    · cases h
    · rename_i r1 hs1
      simp only [] at h
      split at h
      · cases h
      · rename_i r2 hs2
        have a1 := slice_ne_none (by rw [hs1]; simp)
        have a2 := slice_ne_none (by rw [hs2]; simp)
        have b1 := u64_le (i.size + offWidth)
        have b2 := u64_le (i.size + entWidth)
        simp only [u64, entWidth, offWidth, posWidth] at *
        have hl : (splice i.mmap i.size (putUint32 off)).length = i.mmap.length :=
          length_splice (by rw [length_putUint32]; omega)
        rw [hl] at a2
        omega

theorem Index.slot_lt (i : Index) (inp : Int) : i.slot inp < 4294967296 := by
  unfold Index.slot
  split
  · exact Nat.mod_lt _ (by decide)
  · unfold u32OfInt
    omega

theorem Index.Read_eq (i : Index) (inp : Int) :
    i.Read inp =
      if i.size = 0 then .error Err.eof
      else if i.size < i.slot inp * 12 + 12 then .error Err.eof
      else if i.slot inp * 12 + 12 ≤ i.mmap.length then .ok (entryAt i.mmap (i.slot inp))
      else .panic := by
  have hlt := i.slot_lt inp
  have e0 : u64 (i.slot inp * entWidth) = i.slot inp * 12 :=
    u64_of_lt (by simp only [entWidth, offWidth, posWidth]; omega)
  have e4 : u64 (i.slot inp * 12 + offWidth) = i.slot inp * 12 + 4 :=
    u64_of_lt (by simp only [offWidth]; omega)
  have e12 : u64 (i.slot inp * 12 + entWidth) = i.slot inp * 12 + 12 :=
    u64_of_lt (by simp only [entWidth, offWidth, posWidth]; omega)
  unfold Index.Read
  simp only []
  change (if i.size = 0 then _ else
    if i.size < u64 (u64 (i.slot inp * entWidth) + entWidth) then _ else
      match slice i.mmap (u64 (i.slot inp * entWidth)) (u64 (u64 (i.slot inp * entWidth) + offWidth)),
        slice i.mmap (u64 (u64 (i.slot inp * entWidth) + offWidth))
          (u64 (u64 (i.slot inp * entWidth) + entWidth)) with
      | some a, some b => _
      | _, _ => _) = _
  rw [e0, e4, e12]
  by_cases h0 : i.size = 0
  · simp [h0]
  · rw [if_neg h0, if_neg h0]
    by_cases h1 : i.size < i.slot inp * 12 + 12
    · simp [h1]
    · rw [if_neg h1, if_neg h1]
      by_cases h2 : i.slot inp * 12 + 12 ≤ i.mmap.length
      · rw [if_pos h2, slice_of_le (by omega) (by omega), slice_of_le (by omega) h2]
        have t4 : i.slot inp * 12 + 4 - i.slot inp * 12 = 4 := by omega
        have t8 : i.slot inp * 12 + 12 - (i.slot inp * 12 + 4) = 8 := by omega
        rw [t4, t8]
        rfl
      · rw [if_neg h2]
        have : slice i.mmap (i.slot inp * 12 + 4) (i.slot inp * 12 + 12) = none := by
          simp [slice, h2]
        rw [this]
        split
        · rename_i hh
          cases hh
        · rfl

theorem entryAt_mid {k off pos : Nat} (pre rest : List Byte) (hpre : pre.length = k * 12)
    (hoff : off < 4294967296) (hpos : pos < 18446744073709551616) :
    entryAt (pre ++ (putUint32 off ++ putUint64 pos) ++ rest) k = (off, pos) := by
  unfold entryAt
  have d1 : (pre ++ (putUint32 off ++ putUint64 pos) ++ rest).drop (k * 12)
      = putUint32 off ++ (putUint64 pos ++ rest) := by
    rw [List.append_assoc, ← hpre, List.drop_left, List.append_assoc]
  have d2 : (pre ++ (putUint32 off ++ putUint64 pos) ++ rest).drop (k * 12 + 4)
      = putUint64 pos ++ rest := by
    rw [← List.drop_drop, d1]
    rfl
  rw [d1, d2]
  have t1 : (putUint32 off ++ (putUint64 pos ++ rest)).take 4 = putUint32 off := rfl
  have t2 : (putUint64 pos ++ rest).take 8 = putUint64 pos := rfl
  rw [t1, t2, uint32_putUint32 hoff, uint64_putUint64 hpos]

theorem entryAt_left {k : Nat} (pre rest : List Byte) (h : k * 12 + 12 ≤ pre.length) :
    entryAt (pre ++ rest) k = entryAt pre k := by
  unfold entryAt
  have a1 : ((pre ++ rest).drop (k * 12)).take 4 = (pre.drop (k * 12)).take 4 := by
    rw [List.drop_append_of_le_length (by omega), List.take_append_of_le_length]
    rw [List.length_drop]; omega
  have a2 : ((pre ++ rest).drop (k * 12 + 4)).take 8 = (pre.drop (k * 12 + 4)).take 8 := by
    rw [List.drop_append_of_le_length (by omega), List.take_append_of_le_length]
    rw [List.length_drop]; omega
  rw [a1, a2]

theorem u32OfInt_natCast {k : Nat} (h : k < 4294967296) : u32OfInt (k : Int) = k := by
  unfold u32OfInt
  omega

theorem Index.slot_natCast (i : Index) {k : Nat} (h : k < 4294967296) :
    i.slot (k : Int) = k := by
  unfold Index.slot
  rw [if_neg (by omega), u32OfInt_natCast h]


theorem length_encodeEntries (es : List (Nat × Nat)) :
    (encodeEntries es).length = 12 * es.length := by
  induction es with
  | nil => rfl
  | cons e es ih =>
    simp only [encodeEntries, List.length_append, length_putUint32, length_putUint64, ih,
      List.length_cons]
    omega

theorem entryAt_take {m : List Byte} {s k : Nat} (h : k * 12 + 12 ≤ s) (hs : s ≤ m.length) :
    entryAt (m.take s) k = entryAt m k := by
  have := @entryAt_left k (m.take s) (m.drop s) (by rw [List.length_take]; omega)
  rw [List.take_append_drop] at this
  exact this.symm

/-- Slot `k0 + j` of a region that holds the encoding of `es` from byte
`k0 * 12` on is the `j`-th entry of `es`. -/
theorem entryAt_encodeEntries (es : List (Nat × Nat)) :
    ∀ (pre rest : List Byte) (k0 j : Nat) (e : Nat × Nat),
      pre.length = k0 * 12 → es[j]? = some e →
      e.1 < 4294967296 → e.2 < 18446744073709551616 →
      entryAt (pre ++ encodeEntries es ++ rest) (k0 + j) = e := by
  induction es with
  | nil => intro pre rest k0 j e _ h; simp at h
  | cons a es ih =>
    intro pre rest k0 j e hpre hj h1 h2
    cases j with
    | zero =>
      simp only [List.getElem?_cons_zero, Option.some.injEq] at hj
      subst hj
      have := @entryAt_mid k0 a.1 a.2 pre (encodeEntries es ++ rest) hpre h1 h2
      simpa [encodeEntries, List.append_assoc] using this
    | succ j =>
      simp only [List.getElem?_cons_succ] at hj
      have hpre2 : (pre ++ (putUint32 a.1 ++ putUint64 a.2)).length = (k0 + 1) * 12 := by
        simp only [List.length_append, length_putUint32, length_putUint64, hpre]; omega
      have := ih (pre ++ (putUint32 a.1 ++ putUint64 a.2)) rest (k0 + 1) j e hpre2 hj h1 h2
      have e1 : k0 + (j + 1) = k0 + 1 + j := by omega
      rw [e1]
      simpa [encodeEntries, List.append_assoc] using this

/-- A run of writes into an index with room for all of them. -/
theorem Index.writeAll_of_room (es : List (Nat × Nat)) :
    ∀ (i : Index), i.size + 12 * es.length ≤ i.mmap.length →
      i.size + 12 * es.length < 18446744073709551616 →
      i.writeAll es = some
        { i with
          mmap := i.mmap.take i.size ++ encodeEntries es
                    ++ i.mmap.drop (i.size + 12 * es.length),
          size := i.size + 12 * es.length } := by
  induction es with
  | nil =>
    intro i _ _
    simp [Index.writeAll, encodeEntries]
  | cons e es ih =>
    intro i h hs
    simp only [List.length_cons] at h hs
    have hw := Index.Write_of_room i e.1 e.2 (by omega) (by omega)
    unfold Index.writeAll
    rw [hw]
    simp only []
    have hl : (List.take i.size i.mmap ++ (putUint32 e.1 ++ putUint64 e.2)).length
        = i.size + 12 := by
      simp only [List.length_append, List.length_take, length_putUint32, length_putUint64]
      omega
    rw [ih _ (by
        simp only [List.length_append, List.length_take, List.length_drop, length_putUint32,
          length_putUint64]
        omega) (by simp only []; omega)]
    simp only [Option.some.injEq, Index.mk.injEq, true_and]
    refine ⟨?_, by simp only [List.length_cons]; omega⟩
    have t1 : (List.take i.size i.mmap ++ (putUint32 e.1 ++ putUint64 e.2)
        ++ List.drop (i.size + 12) i.mmap).take (i.size + 12)
        = List.take i.size i.mmap ++ (putUint32 e.1 ++ putUint64 e.2) := List.take_left' hl
    have t2 : (List.take i.size i.mmap ++ (putUint32 e.1 ++ putUint64 e.2)
        ++ List.drop (i.size + 12) i.mmap).drop (i.size + 12 + 12 * es.length)
        = List.drop (i.size + 12 * (es.length + 1)) i.mmap := by
      have := @List.drop_append _ (List.take i.size i.mmap ++ (putUint32 e.1 ++ putUint64 e.2))
        (List.drop (i.size + 12) i.mmap) (12 * es.length)
      rw [hl] at this
      rw [this, List.drop_drop]
      congr 1
      omega
    rw [t1, t2]
    simp only [encodeEntries, List.append_assoc, List.length_cons]


/-- A run of writes from a well-formed index that succeeds had room for all
of them. -/
theorem Index.room_of_writeAll (es : List (Nat × Nat)) :
    ∀ (i i' : Index), i.size ≤ i.mmap.length → i.size < 18446744073709551616 →
      i.writeAll es = some i' →
      i.size + 12 * es.length ≤ i.mmap.length ∧
      i.size + 12 * es.length < 18446744073709551616 := by
  induction es with
  | nil =>
    intro i i' h1 h2 _
    simp only [List.length_nil]
    omega
  | cons e es ih =>
    intro i i' _ _ h
    unfold Index.writeAll at h
    split at h
    · rename_i i1 hw
      have hr := @Index.room_of_Write_ok i e.1 e.2 (by rw [hw])
      rw [Index.Write_of_room i e.1 e.2 hr.1 hr.2] at hw
      cases hw
      have := ih _ _ (by
        simp only [List.length_append, List.length_take, List.length_drop, length_putUint32,
          length_putUint64]
        omega) (by simp only []; omega) h
      simp only [List.length_append, List.length_take, List.length_drop, length_putUint32,
          length_putUint64, List.length_cons] at this ⊢
      omega
    · cases h

theorem getElem?_splice_outside {m : List Byte} {s j : Nat} (bs : List Byte)
    (hb : bs.length = 12) (h : s + 12 ≤ m.length) (hj : j < s ∨ s + 12 ≤ j) :
    (m.take s ++ bs ++ m.drop (s + 12))[j]? = m[j]? := by
  rcases hj with hj | hj
  · rw [List.append_assoc, List.getElem?_append_left (by rw [List.length_take]; omega),
      List.getElem?_take_of_lt hj]
  · rw [List.getElem?_append_right (by
      simp only [List.length_append, List.length_take, hb]; omega)]
    simp only [List.length_append, List.length_take, hb, List.getElem?_drop]
    congr 1
    omega


theorem Index.writeAll_append (a b : List (Nat × Nat)) :
    ∀ i : Index, i.writeAll (a ++ b) = (i.writeAll a).bind (fun j => j.writeAll b) := by
  induction a with
  | nil => intro i; rfl
  | cons e a ih =>
    intro i
    simp only [List.cons_append, Index.writeAll]
    split
    · exact ih _
    · rfl

theorem Index.writeAll_single (j i' : Index) (e : Nat × Nat)
    (h : j.writeAll [e] = some i') : j.Write e.1 e.2 = (i', .ok ()) := by
  unfold Index.writeAll at h
  split at h
  · rename_i i1 hw
    simp only [Index.writeAll, Option.some.injEq] at h
    rw [hw, h]
  · cases h

theorem Index.dvd_size_of_writeAll (es : List (Nat × Nat)) :
    ∀ (i i' : Index), 12 ∣ i.size → i.writeAll es = some i' → 12 ∣ i'.size := by
  induction es with
  | nil =>
    intro i i' h hw
    simp only [Index.writeAll, Option.some.injEq] at hw
    rw [← hw]; exact h
  | cons e es ih =>
    intro i i' h hw
    unfold Index.writeAll at hw
    split at hw
    · rename_i i1 hw1
      have hr := @Index.room_of_Write_ok i e.1 e.2 (by rw [hw1])
      rw [Index.Write_of_room i e.1 e.2 hr.1 hr.2] at hw1
      cases hw1
      exact ih _ _ (by simp only []; omega) hw
    · cases hw

theorem Index.Read_last_after_Write (j i' : Index) (off pos : Nat)
    (hal : 12 ∣ j.size) (hw : j.Write off pos = (i', .ok ()))
    (hn : i'.size / 12 ≤ 4294967296)
    (hoff : off < 4294967296) (hpos : pos < 18446744073709551616) :
    i'.Read (-1) = .ok (off, pos) := by
  have hr := @Index.room_of_Write_ok j off pos (by rw [hw])
  rw [Index.Write_of_room j off pos hr.1 hr.2] at hw
  cases hw
  simp only [] at hn
  obtain ⟨k, hk⟩ := hal
  rw [Index.Read_eq]
  have hslot : Index.slot { j with
      mmap := j.mmap.take j.size ++ (putUint32 off ++ putUint64 pos) ++ j.mmap.drop (j.size + 12),
      size := j.size + 12 } (-1) = k := by
    unfold Index.slot
    rw [if_pos rfl]
    simp only [u32, u64, entWidth, offWidth, posWidth]
    omega
  rw [hslot]
  simp only []
  have hl : (List.take j.size j.mmap).length = k * 12 := by
    rw [List.length_take]; omega
  rw [if_neg (by omega), if_neg (by omega), if_pos, entryAt_mid _ _ hl hoff hpos]
  simp only [List.length_append, List.length_take, List.length_drop, length_putUint32,
    length_putUint64]
  omega

/-- Reading the last slot of an index that holds `n` entries from byte 0 on,
where `n - 1` is a multiple of `2^32`, yields the entry in slot 0. -/
theorem Index.Read_last_wraps (i : Index) (e : Nat × Nat) (es : List (Nat × Nat))
    (rest : List Byte)
    (hm : i.mmap = encodeEntries (e :: es) ++ rest) (hs : i.size = 12 * (es.length + 1))
    (hw : es.length % 4294967296 = 0) (hlt : i.size < 18446744073709551616)
    (h1 : e.1 < 4294967296) (h2 : e.2 < 18446744073709551616) :
    i.Read (-1) = .ok e := by
  rw [Index.Read_eq]
  have hslot : i.slot (-1) = 0 := by
    unfold Index.slot
    rw [if_pos rfl, hs]
    simp only [u32, u64, entWidth, offWidth, posWidth]
    omega
  rw [hslot, if_neg (by omega), if_neg (by omega), if_pos, hm]
  · have := entryAt_encodeEntries (e :: es) [] rest 0 0 e rfl
      (List.getElem?_cons_zero) h1 h2
    simpa using this
  · rw [hm, List.length_append, length_encodeEntries, List.length_cons]
    omega

/-- A run of writes into a freshly mapped region with room for all of them. -/
theorem emptyIndex_writeAll (c n : Nat) (es : List (Nat × Nat)) (hn : es.length = n)
    (h : 12 * n ≤ c) (hc : c < 18446744073709551616) :
    (emptyIndex c).writeAll es = some
      { file := (emptyIndex c).file,
        mmap := encodeEntries es ++ List.replicate (c - 12 * n) 0,
        size := 12 * n } := by
  have hm : (emptyIndex c).mmap.length = c := List.length_replicate _ _
  have hs : (emptyIndex c).size = 0 := rfl
  rw [Index.writeAll_of_room es _ (by rw [hn, hm, hs]; omega) (by rw [hn, hs]; omega)]
  simp only [hs, hn, List.take_zero, List.nil_append, Nat.zero_add]
  simp only [emptyIndex, List.drop_replicate]

theorem entryAt_zeros {n : Nat} (h : 12 ≤ n) :
    entryAt (List.replicate n (0 : Byte)) 0 = (0, 0) := by
  unfold entryAt
  rw [List.drop_replicate, List.drop_replicate, List.take_replicate, List.take_replicate]
  have e4 : min 4 (n - 0 * 12) = 4 := by omega
  have e8 : min 8 (n - (0 * 12 + 4)) = 8 := by omega
  rw [e4, e8]
  rfl

/-- After a write into slot `k` of an index, a read of slot `k` returns the
entry in slot `k mod 2^32`; here for `k` a multiple of `2^32`. -/
theorem Index.Read_after_Write_wraps (i : Index) (k off pos : Nat)
    (hsz : i.size = 12 * k) (hroom : i.size + 12 ≤ i.mmap.length)
    (hlt : i.size + 12 < 18446744073709551616) (hk : k % 4294967296 = 0) (hk1 : 1 ≤ k) :
    (i.Write off pos).2 = .ok () ∧
    (i.Write off pos).1.Read (k : Int) = .ok (entryAt i.mmap 0) := by
  rw [Index.Write_of_room i off pos hroom hlt]
  refine ⟨rfl, ?_⟩
  rw [Index.Read_eq]
  have hslot : ∀ j : Index, j.slot (k : Int) = 0 := by
    intro j
    unfold Index.slot u32OfInt
    rw [if_neg (by omega)]
    omega
  simp only [hslot]
  rw [if_neg (by omega), if_neg (by omega), if_pos (by
    simp only [List.length_append, List.length_take, List.length_drop, length_putUint32,
      length_putUint64]
    omega)]
  rw [List.append_assoc, entryAt_left _ _ (by rw [List.length_take]; omega),
    entryAt_take (by omega) (by omega)]

/-! ## Lemmas: opening and closing an index -/

theorem Index.Close_eq (i : Index) (hopen : i.file.isOpen = true) :
    i.Close =
      match i.file.faults.msync with
      | some e => ({ i with file := { i.file with calls := i.file.calls ++ [Call.msync] } }, some e)
      | none =>
        match i.file.faults.fsync with
        | some e =>
          ({ i with file := { i.file with
              data := i.mmap, calls := i.file.calls ++ [Call.msync, Call.fsync] } }, some e)
        | none =>
          match i.truncateErr with
          | some e =>
            ({ i with file := { i.file with
                data := i.mmap,
                calls := i.file.calls
                  ++ [Call.msync, Call.fsync, Call.ftruncate (toInt64 i.size)] } }, some e)
          | none =>
            match i.file.faults.close with
            | some e =>
              ({ i with file := { i.file with
                  data := truncateBytes i.mmap (toInt64 i.size).toNat,
                  calls := i.file.calls
                    ++ [Call.msync, Call.fsync, Call.ftruncate (toInt64 i.size), Call.close] } },
                some e)
            | none =>
              ({ i with file := { i.file with
                  data := truncateBytes i.mmap (toInt64 i.size).toNat,
                  isOpen := false,
                  calls := i.file.calls
                    ++ [Call.msync, Call.fsync, Call.ftruncate (toInt64 i.size), Call.close] } },
                none) := by
  obtain ⟨⟨data, isOpen, calls, ⟨fstat, ftrunc, fmmap, fmsync, ffsync, fclose⟩⟩, mmap, size⟩ := i
  simp only at hopen
  subst hopen
  unfold Index.Close Index.mmapSync Index.truncateErr
  cases fmsync with
  | some e => rfl
  | none =>
    cases ffsync with
    | some e => simp [IndexFile.Sync]
    | none =>
      by_cases hneg : toInt64 size < 0
      · simp [IndexFile.Sync, IndexFile.Truncate, osTruncate, hneg]
      · cases ftrunc with
        | some e => simp [IndexFile.Sync, IndexFile.Truncate, osTruncate, hneg]
        | none =>
          cases fclose with
          | some e => simp [IndexFile.Sync, IndexFile.Truncate, osTruncate, hneg, IndexFile.Close]
          | none => simp [IndexFile.Sync, IndexFile.Truncate, osTruncate, hneg, IndexFile.Close]


theorem length_truncateBytes (d : List Byte) (n : Nat) : (truncateBytes d n).length = n := by
  simp only [truncateBytes, List.length_append, List.length_take, List.length_replicate]
  omega

theorem truncateBytes_nil (n : Nat) : truncateBytes [] n = List.replicate n 0 := by
  simp [truncateBytes]

theorem truncateBytes_of_length_le {d : List Byte} {n : Nat} (h : d.length ≤ n) :
    truncateBytes d n = d ++ List.replicate (n - d.length) 0 := by
  simp only [truncateBytes, List.take_of_length_le h]

theorem toInt64_of_lt {x : Nat} (h : x < 9223372036854775808) : toInt64 x = (x : Int) := by
  unfold toInt64
  have : u64 x = x := u64_of_lt (by omega)
  rw [this, if_pos h]

theorem toInt64_toNat_lt {x : Nat} (h : 0 ≤ toInt64 x) :
    (toInt64 x).toNat < 9223372036854775808 := by
  unfold toInt64 at h ⊢
  have := Nat.mod_lt x (show 0 < 18446744073709551616 by decide)
  unfold u64 at h ⊢
  split at h
  · rename_i hh
    rw [if_pos hh]
    omega
  · omega

/-- What a successful `newIndex` found and built. -/
theorem newIndex_ok_inv {f : IndexFile} {c : Config} {i : Index} (h : newIndex f c = .ok i) :
    f.faults.stat = none ∧ f.faults.truncate = none ∧ f.faults.mmap = none ∧
    f.isOpen = true ∧ 0 ≤ toInt64 c.Segment.MaxIndexBytes ∧
    (toInt64 c.Segment.MaxIndexBytes).toNat ≠ 0 ∧
    i = { file := { f with data := truncateBytes f.data (toInt64 c.Segment.MaxIndexBytes).toNat },
          mmap := truncateBytes f.data (toInt64 c.Segment.MaxIndexBytes).toNat,
          size := u64 f.data.length } := by
  obtain ⟨data, isOpen, calls, ⟨fstat, ftrunc, fmmap, fmsync, ffsync, fclose⟩⟩ := f
  unfold newIndex osTruncate gommapMap at h
  simp only [] at h ⊢
  cases fstat with
  | some e => simp at h
  | none =>
    by_cases hneg : toInt64 c.Segment.MaxIndexBytes < 0
    · simp [hneg] at h
    · cases ftrunc with
      | some e => simp [hneg] at h
      | none =>
        cases isOpen with
        | false => simp [hneg] at h
        | true =>
          cases fmmap with
          | some e => simp [hneg] at h
          | none =>
            simp only [hneg, if_false, length_truncateBytes] at h
            by_cases hz : (toInt64 c.Segment.MaxIndexBytes).toNat = 0
            · simp [hz] at h
            · simp only [Bool.true_eq_false, if_false, hz, Except.ok.injEq] at h
              refine ⟨rfl, rfl, rfl, rfl, by omega, hz, h.symm⟩

/-- Conditions under which `newIndex` succeeds, and its result. -/
theorem newIndex_of_ok (f : IndexFile) (c : Config)
    (h1 : f.faults.stat = none) (h2 : f.faults.truncate = none) (h3 : f.faults.mmap = none)
    (h4 : f.isOpen = true) (h5 : 0 ≤ toInt64 c.Segment.MaxIndexBytes)
    (h6 : (toInt64 c.Segment.MaxIndexBytes).toNat ≠ 0) :
    newIndex f c = .ok
      { file := { f with data := truncateBytes f.data (toInt64 c.Segment.MaxIndexBytes).toNat },
        mmap := truncateBytes f.data (toInt64 c.Segment.MaxIndexBytes).toNat,
        size := u64 f.data.length } := by
  obtain ⟨data, isOpen, calls, ⟨fstat, ftrunc, fmmap, fmsync, ffsync, fclose⟩⟩ := f
  simp only [] at h1 h2 h3 h4
  subst h1 h2 h3 h4
  unfold newIndex osTruncate gommapMap
  have hneg : ¬ toInt64 c.Segment.MaxIndexBytes < 0 := by omega
  simp [hneg, length_truncateBytes, h6]

/-- What a successful `Close` did to the file. -/
theorem Index.Close_ok_inv {i i1 : Index} (h : i.Close = (i1, none)) :
    i.file.isOpen = true ∧ 0 ≤ toInt64 i.size ∧
    i1.file.data = truncateBytes i.mmap (toInt64 i.size).toNat ∧
    i1.file.faults = i.file.faults ∧ i1.file.isOpen = false ∧
    i1.mmap = i.mmap ∧ i1.size = i.size := by
  have hopen : i.file.isOpen = true := by
    cases ho : i.file.isOpen with
    | true => rfl
    | false =>
      exfalso
      unfold Index.Close Index.mmapSync at h
      cases hm : i.file.faults.msync with
      | some e => simp [hm] at h
      | none => simp [hm, IndexFile.Sync, ho] at h
  have h2 := Index.Close_eq i hopen
  rw [h] at h2
  cases hm : i.file.faults.msync with
  | some e => simp [hm] at h2
  | none =>
    cases hf : i.file.faults.fsync with
    | some e => simp [hm, hf] at h2
    | none =>
      cases ht : i.truncateErr with
      | some e => simp [hm, hf, ht] at h2
      | none =>
        cases hc : i.file.faults.close with
        | some e => simp [hm, hf, ht, hc] at h2
        | none =>
          simp only [hm, hf, ht, hc, Prod.mk.injEq, and_true] at h2
          subst h2
          refine ⟨hopen, ?_, rfl, rfl, rfl, rfl, rfl⟩
          unfold Index.truncateErr at ht
          split at ht
          · cases ht
          · omega

/-- Reading slot `k` of an index whose region begins with the encoding of
`es`, all of it within `size`. -/
theorem Index.Read_encoded (i : Index) (es : List (Nat × Nat)) (rest : List Byte)
    (hm : i.mmap = encodeEntries es ++ rest) (hs : i.size = 12 * es.length)
    (inp : Int) (e : Nat × Nat) (hk : es[i.slot inp]? = some e)
    (h1 : e.1 < 4294967296) (h2 : e.2 < 18446744073709551616) :
    i.Read inp = .ok e := by
  have hlt : i.slot inp < es.length := by
    by_contra hcon
    rw [List.getElem?_eq_none (by omega)] at hk
    cases hk
  rw [Index.Read_eq, if_neg (by omega), if_neg (by omega), if_pos, hm]
  · have := entryAt_encodeEntries es [] rest 0 (i.slot inp) e rfl hk h1 h2
    simpa using this
  · rw [hm, List.length_append, length_encodeEntries]
    omega

theorem truncateBytes_append_left {pre : List Byte} {n : Nat} (rest : List Byte)
    (h : pre.length = n) : truncateBytes (pre ++ rest) n = pre := by
  unfold truncateBytes
  rw [List.take_left' h, List.length_append, h]
  have : n - (n + rest.length) = 0 := by omega
  rw [this]
  simp

/-- The state of an index opened on an empty file, written to, closed and
opened again. -/
theorem reopen_state (f : IndexFile) (c : Config) (es : List (Nat × Nat)) (i0 i i1 : Index)
    (hempty : f.data = []) (hnew : newIndex f c = .ok i0)
    (hw : i0.writeAll es = some i) (hclose : i.Close = (i1, none)) :
    i.size = 12 * es.length ∧ 12 * es.length ≤ (toInt64 c.Segment.MaxIndexBytes).toNat ∧
    ∃ i2, newIndex i1.file.Open c = .ok i2 ∧ i2.size = 12 * es.length ∧
      i2.mmap = encodeEntries es
        ++ List.replicate ((toInt64 c.Segment.MaxIndexBytes).toNat - 12 * es.length) 0 := by
  obtain ⟨hs1, hs2, hs3, hs4, hs5, hs6, hi0⟩ := newIndex_ok_inv hnew
  have hcap := toInt64_toNat_lt hs5
  rw [hempty, truncateBytes_nil] at hi0
  have h0s : i0.size = 0 := by rw [hi0]; rfl
  have h0m : i0.mmap.length = (toInt64 c.Segment.MaxIndexBytes).toNat := by
    rw [hi0]; exact List.length_replicate _ _
  have h0f : i0.file.faults = f.faults := by rw [hi0]
  have hroom := Index.room_of_writeAll es i0 i (by omega) (by omega) hw
  rw [Index.writeAll_of_room es i0 hroom.1 hroom.2] at hw
  simp only [Option.some.injEq] at hw
  have his : i.size = 12 * es.length := by rw [← hw]; simp only [h0s]; omega
  have him : i.mmap = encodeEntries es ++ List.drop (12 * es.length) i0.mmap := by
    rw [← hw]; simp only [h0s, List.take_zero, List.nil_append, Nat.zero_add]
  have hif : i.file = i0.file := by rw [← hw]
  obtain ⟨_, _, hd, hfl, _, _, _⟩ := Index.Close_ok_inv hclose
  rw [his, toInt64_of_lt (by omega), Int.toNat_ofNat, him,
    truncateBytes_append_left _ (length_encodeEntries es)] at hd
  rw [hif, h0f] at hfl
  refine ⟨his, by omega, _, newIndex_of_ok i1.file.Open c ?_ ?_ ?_ rfl hs5 hs6, ?_, ?_⟩
  · show i1.file.faults.stat = none
    rw [hfl, hs1]
  · show i1.file.faults.truncate = none
    rw [hfl, hs2]
  · show i1.file.faults.mmap = none
    rw [hfl, hs3]
  · show u64 i1.file.data.length = 12 * es.length
    rw [hd, length_encodeEntries]
    exact u64_of_lt (by omega)
  · show truncateBytes i1.file.data _ = _
    rw [hd, truncateBytes_of_length_le (by rw [length_encodeEntries]; omega),
      length_encodeEntries]

theorem newIndex_empty (c : Nat) (h0 : c ≠ 0) (hc : c < 9223372036854775808) :
    newIndex { data := [] } ⟨⟨c⟩⟩ = .ok (emptyIndex c) := by
  have ht : toInt64 c = (c : Int) := toInt64_of_lt hc
  rw [newIndex_of_ok _ _ rfl rfl rfl rfl (by show 0 ≤ toInt64 c; rw [ht]; omega)
    (by show (toInt64 c).toNat ≠ 0; rw [ht]; simpa using h0)]
  simp only [ht, Int.toNat_ofNat, truncateBytes_nil]
  rfl

/-- The index found after opening an empty file with capacity `c`, writing
`es`, closing and opening again, when `es` fits. -/
theorem reopenAfter_eq (c n : Nat) (es : List (Nat × Nat)) (hn : es.length = n)
    (h : 12 * n ≤ c) (h0 : c ≠ 0) (hc : c < 9223372036854775808) :
    ∃ i2, reopenAfter ⟨⟨c⟩⟩ es = some i2 ∧ i2.size = 12 * n ∧
      i2.mmap = encodeEntries es ++ List.replicate (c - 12 * n) 0 := by
  have hnew := newIndex_empty c h0 hc
  have hw := emptyIndex_writeAll c n es hn h (by omega)
  have ht : toInt64 c = (c : Int) := toInt64_of_lt hc
  obtain ⟨i, hi⟩ : ∃ i : Index, Index.mk (emptyIndex c).file
      (encodeEntries es ++ List.replicate (c - 12 * n) 0) (12 * n) = i := ⟨_, rfl⟩
  rw [hi] at hw
  have hopen : i.file.isOpen = true := by rw [← hi]; rfl
  have hte : i.truncateErr = none := by
    rw [← hi]
    unfold Index.truncateErr
    rw [if_neg (by
      show ¬ toInt64 (12 * n) < 0
      rw [toInt64_of_lt (by omega)]; omega)]
    rfl
  have hcl := Index.Close_eq i hopen
  have hf1 : i.file.faults.msync = none := by rw [← hi]; rfl
  have hf2 : i.file.faults.fsync = none := by rw [← hi]; rfl
  have hf3 : i.file.faults.close = none := by rw [← hi]; rfl
  rw [hf1, hf2, hte, hf3] at hcl
  simp only [] at hcl
  obtain ⟨hsz, _, i2, hre, h2s, h2m⟩ :=
    reopen_state { data := [] } ⟨⟨c⟩⟩ es (emptyIndex c) i _ rfl hnew hw hcl
  refine ⟨i2, ?_, by rw [h2s, hn], ?_⟩
  · unfold reopenAfter
    rw [hnew]
    simp only []
    rw [hw]
    simp only []
    rw [hcl]
    simp only []
    rw [hre]
  · rw [h2m, hn]
    show _ ++ List.replicate ((toInt64 c).toNat - 12 * n) 0 = _
    rw [ht, Int.toNat_ofNat]

/-! ## Lemmas: buffered writer and store -/

theorem File.Write_of_le (f : File) (p : List Byte) (h : p.length ≤ f.accepts) :
    f.Write p = ({ f with data := f.data ++ p, room := f.room - p.length }, p.length, none) := by
  unfold File.Write
  rw [if_pos h]

theorem File.Write_of_gt (f : File) (p : List Byte) (h : f.accepts < p.length) :
    f.Write p = ({ f with data := f.data ++ p.take f.accepts, room := f.room - f.accepts },
      f.accepts, some Err.noSpace) := by
  unfold File.Write
  rw [if_neg (by omega)]

/-- A flush with no pending error: all buffered bytes reach the file when
the file accepts them, otherwise the flush fails and the error sticks. -/
theorem Writer.Flush_eq (b : Writer) (f : File) (hb : b.err = none) :
    b.Flush f =
      if b.buf.length ≤ f.accepts then
        ({ buf := [], err := none },
          { f with data := f.data ++ b.buf, room := f.room - b.buf.length }, none)
      else
        ({ buf := b.buf.drop f.accepts, err := some Err.noSpace },
          { f with data := f.data ++ b.buf.take f.accepts, room := f.room - f.accepts },
          some Err.noSpace) := by
  obtain ⟨buf, err⟩ := b
  simp only [] at hb
  subst hb
  unfold Writer.Flush
  simp only []
  by_cases h0 : buf.length = 0
  · have : buf = [] := List.length_eq_zero.mp h0
    subst this
    simp
  · rw [if_neg h0]
    by_cases h : buf.length ≤ f.accepts
    · rw [File.Write_of_le f buf h, if_pos h]
    · rw [File.Write_of_gt f buf (by omega), if_neg h]

/-- Once the loop condition of `Write` is false the loop is over. -/
theorem Writer.writeLoop_done (k : Nat) (b : Writer) (f : File) (p : List Byte) (nn : Nat)
    (h : ¬ (b.Available < p.length ∧ b.err = none)) :
    Writer.writeLoop k b f p nn = (b, f, p, nn) := by
  cases k with
  | zero => rfl
  | succ k =>
    unfold Writer.writeLoop
    rw [if_neg h]

/-- The loop of `Write` from a writer with no pending error that cannot take
`p` whole. -/
theorem Writer.writeLoop_eq (b : Writer) (f : File) (p : List Byte) (nn : Nat)
    (hb : b.err = none) (hl : b.buf.length ≤ defaultBufSize) :
    Writer.writeLoop 2 b f p nn =
      if p.length ≤ b.Available then (b, f, p, nn)
      else if b.buf.length = 0 then
        if p.length ≤ f.accepts then
          (b, { f with data := f.data ++ p, room := f.room - p.length }, [], nn + p.length)
        else
          ({ b with err := some Err.noSpace },
            { f with data := f.data ++ p.take f.accepts, room := f.room - f.accepts },
            p.drop f.accepts, nn + f.accepts)
      else if defaultBufSize ≤ f.accepts then
        let f1 : File := { f with data := f.data ++ (b.buf ++ p.take b.Available),
                                  room := f.room - defaultBufSize }
        let p1 := p.drop b.Available
        if p1.length ≤ defaultBufSize then
          ({ buf := [], err := none }, f1, p1, nn + b.Available)
        else if p1.length ≤ f1.accepts then
          ({ buf := [], err := none },
            { f1 with data := f1.data ++ p1, room := f1.room - p1.length }, [],
            nn + b.Available + p1.length)
        else
          ({ buf := [], err := some Err.noSpace },
            { f1 with data := f1.data ++ p1.take f1.accepts, room := f1.room - f1.accepts },
            p1.drop f1.accepts, nn + b.Available + f1.accepts)
      else
        ({ buf := (b.buf ++ p.take b.Available).drop f.accepts, err := some Err.noSpace },
          { f with data := f.data ++ (b.buf ++ p.take b.Available).take f.accepts,
                   room := f.room - f.accepts },
          p.drop b.Available, nn + b.Available) := by
  obtain ⟨buf, err⟩ := b
  simp only [] at hb hl
  subst hb
  by_cases h1 : p.length ≤ Writer.Available { buf := buf, err := none }
  · rw [if_pos h1]
    exact Writer.writeLoop_done _ _ _ _ _ (by omega)
  · rw [if_neg h1]
    unfold Writer.writeLoop
    rw [if_pos ⟨by omega, rfl⟩]
    simp only [Writer.Buffered]
    by_cases h2 : buf.length = 0
    · rw [if_pos h2, if_pos h2]
      by_cases h3 : p.length ≤ f.accepts
      · rw [File.Write_of_le f p h3, if_pos h3]
        simp only []
        rw [Writer.writeLoop_done _ _ _ _ _ (by simp [Writer.Available, defaultBufSize])]
        simp
      · rw [File.Write_of_gt f p (by omega), if_neg h3]
        simp only []
        rw [Writer.writeLoop_done _ _ _ _ _ (by simp)]
    · rw [if_neg h2, if_neg h2]
      simp only [Writer.Available] at h1 ⊢
      have hmin : min (defaultBufSize - buf.length) p.length = defaultBufSize - buf.length := by
        omega
      have hfull : (buf ++ List.take (defaultBufSize - buf.length) p).length = defaultBufSize := by
        rw [List.length_append, List.length_take]; omega
      rw [hmin, Writer.Flush_eq _ _ rfl]
      simp only [hfull]
      by_cases h3 : defaultBufSize ≤ f.accepts
      · rw [if_pos h3, if_pos h3]
        simp only []
        by_cases h4 : (List.drop (defaultBufSize - buf.length) p).length ≤ defaultBufSize
        · rw [if_pos h4]
          exact Writer.writeLoop_done _ _ _ _ _ (by
            simp only [Writer.Available, List.length_nil]; omega)
        · rw [if_neg h4]
          unfold Writer.writeLoop
          rw [if_pos ⟨by simp only [Writer.Available, List.length_nil]; omega, rfl⟩]
          simp only [Writer.Buffered, List.length_nil, if_true]
          by_cases h5 : (List.drop (defaultBufSize - buf.length) p).length
              ≤ File.accepts { f with
                  data := f.data ++ (buf ++ List.take (defaultBufSize - buf.length) p),
                  room := f.room - defaultBufSize }
          · rw [File.Write_of_le _ _ h5, if_pos h5]
            simp only [Writer.writeLoop, List.drop_length]
          · rw [File.Write_of_gt _ _ (by omega), if_neg h5]
            simp only [Writer.writeLoop]
      · rw [if_neg h3, if_neg h3]
        simp only []
        rw [Writer.writeLoop_done _ _ _ _ _ (by simp)]

theorem accepts_add_le (f : File) (h : f.data.length ≤ maxInt) :
    f.data.length + f.accepts ≤ maxInt := by
  unfold File.accepts
  omega

/-- A `Write` that returns no error, from a writer with no pending error:
every byte of `p` is accounted for, in order, behind what the file and the
buffer held; the buffer stays within its size and the file within the largest
offset. -/
theorem Writer.Write_ok_spec (b : Writer) (f : File) (p : List Byte)
    (b1 : Writer) (f1 : File) (nn : Nat)
    (hb : b.err = none) (hl : b.buf.length ≤ defaultBufSize)
    (hf : f.data.length ≤ maxInt)
    (h : b.Write f p = (b1, f1, nn, none)) :
    b1.err = none ∧ b1.buf.length ≤ defaultBufSize ∧ f1.data.length ≤ maxInt ∧
    f1.data ++ b1.buf = f.data ++ b.buf ++ p ∧ nn = p.length ∧ f1.stat = f.stat := by
  unfold Writer.Write at h
  rw [Writer.writeLoop_eq b f p 0 hb hl] at h
  have hacc := accepts_add_le f hf
  by_cases h1 : p.length ≤ b.Available
  · rw [if_pos h1] at h
    simp only [hb] at h
    have hmin : min b.Available p.length = p.length := by omega
    rw [hmin, List.take_length] at h
    simp only [Prod.mk.injEq, and_true] at h
    obtain ⟨rfl, rfl, rfl⟩ := h
    refine ⟨rfl, ?_, hf, by simp only [List.append_assoc], by omega, rfl⟩
    simp only [List.length_append]
    unfold Writer.Available at h1
    omega
  · rw [if_neg h1] at h
    by_cases h2 : b.buf.length = 0
    · rw [if_pos h2] at h
      have hnil : b.buf = [] := List.length_eq_zero.mp h2
      by_cases h3 : p.length ≤ f.accepts
      · rw [if_pos h3] at h
        simp only [hb, List.length_nil, Nat.min_zero, List.take_zero, List.append_nil,
          Prod.mk.injEq, and_true] at h
        obtain ⟨rfl, rfl, rfl⟩ := h
        refine ⟨rfl, hl, ?_, by simp [hnil], by omega, rfl⟩
        simp only [List.length_append]
        omega
      · rw [if_neg h3] at h
        simp at h
    · rw [if_neg h2] at h
      by_cases h3 : defaultBufSize ≤ f.accepts
      · rw [if_pos h3] at h
        simp only [] at h
        have hav : b.Available ≤ p.length := by omega
        have htl : (List.take b.Available p).length = b.Available := by
          rw [List.length_take]; omega
        have hfull : (b.buf ++ List.take b.Available p).length = defaultBufSize := by
          rw [List.length_append, htl]; unfold Writer.Available; omega
        by_cases h4 : (List.drop b.Available p).length ≤ defaultBufSize
        · rw [if_pos h4] at h
          simp only [List.nil_append, Writer.Available, List.length_nil, Nat.sub_zero] at h
          have hmin : min defaultBufSize (List.drop (defaultBufSize - b.buf.length) p).length
              = (List.drop (defaultBufSize - b.buf.length) p).length := by
            unfold Writer.Available at h4; omega
          rw [hmin, List.take_length] at h
          simp only [Prod.mk.injEq, and_true] at h
          obtain ⟨rfl, rfl, rfl⟩ := h
          unfold Writer.Available at h4 hfull htl hav
          refine ⟨rfl, h4, ?_, ?_, ?_, rfl⟩
          · rw [List.length_append, hfull]; omega
          · simp only [List.append_assoc, List.take_append_drop]
          · rw [List.length_drop]; omega
        · rw [if_neg h4] at h
          by_cases h5 : (List.drop b.Available p).length ≤ File.accepts { f with
              data := f.data ++ (b.buf ++ List.take b.Available p),
              room := f.room - defaultBufSize }
          · rw [if_pos h5] at h
            simp only [List.length_nil, Nat.min_zero, List.take_zero, List.append_nil,
              Prod.mk.injEq, and_true] at h
            obtain ⟨rfl, rfl, rfl⟩ := h
            have := accepts_add_le { f with
              data := f.data ++ (b.buf ++ List.take b.Available p),
              room := f.room - defaultBufSize } (by
                simp only [List.length_append] at hfull ⊢; omega)
            refine ⟨rfl, by simp [defaultBufSize], ?_, ?_, ?_, rfl⟩
            · simp only [List.length_append] at this h5 ⊢; omega
            · simp only [List.append_assoc, List.take_append_drop, List.append_nil]
            · rw [List.length_drop]; omega
          · rw [if_neg h5] at h
            simp at h
      · rw [if_neg h3] at h
        simp at h

theorem putUint64_u64 (x : Nat) : putUint64 (u64 x) = putUint64 x := by
  simp only [putUint64, u64, byte, List.cons.injEq, Fin.mk.injEq, and_true]
  omega

/-- A `Write` that fits into the buffer only extends the buffer. -/
theorem Writer.Write_small (b : Writer) (f : File) (p : List Byte)
    (hb : b.err = none) (h : b.buf.length + p.length ≤ defaultBufSize) :
    b.Write f p = ({ b with buf := b.buf ++ p }, f, p.length, none) := by
  unfold Writer.Write
  have h1 : p.length ≤ b.Available := by unfold Writer.Available; omega
  rw [Writer.writeLoop_eq b f p 0 hb (by omega), if_pos h1]
  simp only [hb]
  have hmin : min b.Available p.length = p.length := by omega
  rw [hmin, List.take_length, Nat.zero_add]

theorem newStore_ok_inv {f : File} {s : Store} (h : newStore f = .ok s)
    (hf : f.data.length ≤ maxInt) :
    s.Inv ∧ s.file = f ∧ s.buf.buf = [] ∧ s.size = f.data.length := by
  unfold newStore at h
  split at h
  · cases h
  · simp only [Except.ok.injEq] at h
    subst h
    have : u64 f.data.length = f.data.length :=
      u64_of_lt (by unfold maxInt at hf; omega)
    refine ⟨⟨rfl, by simp, hf, by simp [this]⟩, rfl, rfl, this⟩

/-- An `Append` that returns no error, on a store on which no write has
failed. -/
theorem Store.Append_ok_spec (s s1 : Store) (p : List Byte) (n pos : Nat)
    (hinv : s.Inv) (h : s.Append p = (s1, n, pos, none)) :
    s1.Inv ∧ s1.stream = s.stream ++ frame p ∧ n = 8 + p.length ∧ pos = s.size ∧
    s1.size = s.size + (8 + p.length) ∧ p.length ≤ maxInt + defaultBufSize ∧
    s1.file.stat = s.file.stat := by
  obtain ⟨he, hl, hf, hsz⟩ := hinv
  unfold Store.Append binaryWrite at h
  simp only [] at h
  rcases hw1 : s.buf.Write s.file (putUint64 (u64 p.length)) with ⟨b1, f1, n1, e1⟩
  rw [hw1] at h
  cases e1 with
  | some e => simp at h
  | none =>
    simp only [] at h
    obtain ⟨he1, hl1, hf1, hst1, _, hstat1⟩ :=
      Writer.Write_ok_spec s.buf s.file _ b1 f1 n1 he hl hf hw1
    rcases hw2 : b1.Write f1 p with ⟨b2, f2, n2, e2⟩
    rw [hw2] at h
    cases e2 with
    | some e => simp at h
    | none =>
      simp only [Prod.mk.injEq, and_true] at h
      obtain ⟨he2, hl2, hf2, hst2, hn2, hstat2⟩ :=
        Writer.Write_ok_spec b1 f1 p b2 f2 n2 he1 hl1 hf1 hw2
      rw [hst1, putUint64_u64] at hst2
      have hlen := congrArg List.length hst2
      simp only [List.length_append, length_putUint64] at hlen
      have hp : p.length ≤ maxInt + defaultBufSize := by omega
      have hw : u64 (n2 + lenWidth) = 8 + p.length :=
        by rw [u64_of_lt (by unfold lenWidth maxInt defaultBufSize at *; omega)]
           unfold lenWidth; omega
      rw [hw] at h
      have hs : u64 (s.size + (8 + p.length)) = s.size + (8 + p.length) :=
        u64_of_lt (by unfold maxInt defaultBufSize at *; omega)
      rw [hs] at h
      obtain ⟨rfl, rfl, rfl⟩ := h
      refine ⟨⟨he2, hl2, hf2, ?_⟩, ?_, rfl, rfl, rfl, hp, by rw [hstat2, hstat1]⟩
      · simp only []
        omega
      · unfold Store.stream frame
        simp only [hst2, List.append_assoc]

theorem length_frame (p : List Byte) : (frame p).length = 8 + p.length := by
  simp only [frame, List.length_append, length_putUint64]

theorem Store.Inv.size_eq {s : Store} (h : s.Inv) : s.size = s.stream.length := by
  unfold Store.stream
  rw [List.length_append]
  exact h.2.2.2

/-- A run of appends that all return no error. -/
theorem Store.appendAll_spec (ps : List (List Byte)) :
    ∀ (s s1 : Store), s.Inv → s.appendAll ps = some s1 →
      s1.Inv ∧ s1.stream = s.stream ++ encodeRecords ps ∧
      s1.size = s.size + (ps.map (fun q => 8 + q.length)).sum := by
  induction ps with
  | nil =>
    intro s s1 hinv h
    simp only [Store.appendAll, Option.some.injEq] at h
    subst h
    simp [encodeRecords, hinv]
  | cons p ps ih =>
    intro s s1 hinv h
    unfold Store.appendAll at h
    split at h
    · rename_i s2 n pos ha
      obtain ⟨hinv2, hst, _, _, hsz, _, _⟩ := Store.Append_ok_spec s s2 p n pos hinv ha
      obtain ⟨hinv1, hst1, hsz1⟩ := ih s2 s1 hinv2 h
      refine ⟨hinv1, ?_, ?_⟩
      · rw [hst1, hst]
        simp only [encodeRecords, List.append_assoc]
      · rw [hsz1, hsz]
        simp only [List.map_cons, List.sum_cons]
        omega
    · cases h

/-- A positional read of a range that lies inside the file fills the buffer
with the bytes of the range. -/
theorem File.ReadAt_inside (f : File) (pre mid post b : List Byte) (off : Nat)
    (hd : f.data = pre ++ (mid ++ post)) (hpre : pre.length = off)
    (hmax : off + mid.length ≤ maxInt) (hb : b.length = mid.length) :
    f.ReadAt b (toInt64 off) = (mid, mid.length, none) := by
  have hoff : off < 9223372036854775808 := by unfold maxInt at hmax; omega
  unfold File.ReadAt
  rw [toInt64_of_lt hoff, if_neg (by omega), Int.toNat_ofNat]
  by_cases h0 : b.length = 0
  · rw [if_pos h0]
    have hbn : b = [] := List.length_eq_zero.mp h0
    have hmn : mid = [] := List.length_eq_zero.mp (by omega)
    rw [hbn, hmn]
    rfl
  · rw [if_neg h0, if_neg (by omega), hd, List.drop_left' hpre, hb, List.take_left' rfl]
    simp

/-- After a successful flush the file holds the whole stream of the store
and the buffer is empty. -/
theorem Store.flush_ok (s : Store) (hinv : s.Inv) (h : s.buf.buf.length ≤ s.file.accepts) :
    s.buf.Flush s.file =
      ({ buf := [], err := none },
        { s.file with data := s.stream, room := s.file.room - s.buf.buf.length }, none) ∧
    s.stream.length ≤ maxInt := by
  rw [Writer.Flush_eq _ _ hinv.1, if_pos h]
  refine ⟨rfl, ?_⟩
  have := accepts_add_le s.file hinv.2.2.1
  unfold Store.stream
  rw [List.length_append]
  omega

/-- An `Append` that fits into the buffer leaves the file alone: the record
is only in the buffer afterwards. -/
theorem Store.Append_small (s : Store) (p : List Byte) (hb : s.buf.err = none)
    (h : s.buf.buf.length + 8 + p.length ≤ defaultBufSize) :
    (s.Append p).1.file = s.file ∧ (s.Append p).1.buf.buf = s.buf.buf ++ frame p ∧
    (s.Append p).2.2.2 = none := by
  unfold Store.Append binaryWrite
  simp only []
  rw [Writer.Write_small s.buf s.file _ hb (by rw [length_putUint64]; omega)]
  simp only []
  rw [Writer.Write_small { s.buf with buf := s.buf.buf ++ putUint64 (u64 p.length) } s.file p hb
    (by simp only [List.length_append, length_putUint64]; omega)]
  simp only [putUint64_u64, frame, List.append_assoc, and_self]

/-- Two iterations are enough: when the loop of `Write` has run twice its
condition is false. -/
theorem Writer.writeLoop_exit (b : Writer) (f : File) (p : List Byte) (nn : Nat)
    (hl : b.buf.length ≤ defaultBufSize) :
    ¬ ((Writer.writeLoop 2 b f p nn).1.Available < (Writer.writeLoop 2 b f p nn).2.2.1.length
        ∧ (Writer.writeLoop 2 b f p nn).1.err = none) := by
  by_cases hb : b.err = none
  · rw [Writer.writeLoop_eq b f p nn hb hl]
    split
    · simp only []; omega
    · split
      · split
        · simp
        · simp
      · split
        · simp only []
          split
          · rename_i h4
            simp only [Writer.Available, List.length_nil] at h4 ⊢; omega
          · split
            · simp
            · simp
        · simp
  · rw [Writer.writeLoop_done _ _ _ _ _ (by simp [hb])]
    simp [hb]

/-! ## Lemmas: invariants of the index and of the store -/

/-- The mapped region keeps its length through `Write`, whatever the
outcome. -/
theorem Index.Write_length (i : Index) (off pos : Nat) :
    (i.Write off pos).1.mmap.length = i.mmap.length := by
  unfold Index.Write
  split
  · rfl
  · split
    · rfl
    · rename_i r1 hs1
      have a1 := slice_ne_none (by rw [hs1]; simp)
      have hl : (splice i.mmap i.size (putUint32 off)).length = i.mmap.length :=
        length_splice (by
          rw [length_putUint32]; simp only [u64, offWidth] at a1; omega)
      simp only []
      split
      · exact hl
      · rename_i r2 hs2
        have a2 := slice_ne_none (by rw [hs2]; simp)
        simp only []
        rw [length_splice (by
          rw [length_putUint64, hl]
          rw [hl] at a2
          simp only [u64, entWidth, offWidth, posWidth] at *
          omega), hl]

/-- A `Write` that does not succeed leaves `size` alone. -/
theorem Index.Write_size_of_not_ok (i : Index) (off pos : Nat)
    (h : (i.Write off pos).2 ≠ .ok ()) : (i.Write off pos).1.size = i.size := by
  unfold Index.Write at h ⊢
  by_cases h1 : i.mmap.length < u64 (i.size + offWidth)
  · rw [if_pos h1]
  · rw [if_neg h1] at h ⊢
    cases hs1 : slice i.mmap i.size (u64 (i.size + offWidth)) with
    | none => rfl
    | some r1 =>
      rw [hs1] at h
      simp only [] at h ⊢
      cases hs2 : slice (splice i.mmap i.size (putUint32 off)) (u64 (i.size + offWidth))
          (u64 (i.size + entWidth)) with
      | none => rfl
      | some r2 =>
        rw [hs2] at h
        exact absurd rfl h

/-- The size bound and alignment of an index survive every `Write`. -/
theorem Index.Write_keeps_bound (i : Index) (off pos : Nat)
    (hal : 12 ∣ i.size) (hle : i.size ≤ i.mmap.length) :
    12 ∣ (i.Write off pos).1.size ∧ (i.Write off pos).1.size ≤ (i.Write off pos).1.mmap.length := by
  rw [Index.Write_length]
  by_cases hok : (i.Write off pos).2 = .ok ()
  · have hr := Index.room_of_Write_ok hok
    rw [Index.Write_of_room i off pos hr.1 hr.2]
    simp only []
    omega
  · rw [Index.Write_size_of_not_ok i off pos hok]
    exact ⟨hal, hle⟩


/-- The state `Read` leaves: that of its flush, whatever it returns. -/
theorem Store.Read_state (s : Store) (pos : Nat) :
    (s.Read pos).1 = { s with buf := (s.buf.Flush s.file).1, file := (s.buf.Flush s.file).2.1 } := by
  unfold Store.Read
  rcases hfl : s.buf.Flush s.file with ⟨b1, f1, e⟩
  cases e with
  | some e => rfl
  | none =>
    simp only []
    repeat (first | rfl | split)

/-- The state `ReadAt` leaves: that of its flush, whatever it returns. -/
theorem Store.ReadAt_state (s : Store) (b : List Byte) (off : Int) :
    (s.ReadAt b off).1
      = { s with buf := (s.buf.Flush s.file).1, file := (s.buf.Flush s.file).2.1 } := by
  unfold Store.ReadAt
  rcases hfl : s.buf.Flush s.file with ⟨b1, f1, e⟩
  cases e with
  | some e => rfl
  | none => rfl

/-- A `Write` that returns an error leaves that error in the writer. -/
theorem Writer.Write_err (b : Writer) (f : File) (p : List Byte) (b1 : Writer) (f1 : File)
    (nn : Nat) (e : Err) (h : b.Write f p = (b1, f1, nn, some e)) : b1.err = some e := by
  unfold Writer.Write at h
  simp only [] at h
  split at h
  · rename_i e' he
    simp only [Prod.mk.injEq, Option.some.injEq] at h
    obtain ⟨rfl, _, _, rfl⟩ := h
    exact he
  · simp at h

/-- A `Write` on a writer with a pending error returns that error and changes
nothing. -/
theorem Writer.Write_pending (b : Writer) (f : File) (p : List Byte) (e : Err)
    (hb : b.err = some e) : b.Write f p = (b, f, 0, some e) := by
  unfold Writer.Write
  rw [Writer.writeLoop_done _ _ _ _ _ (by simp [hb])]
  simp only [hb]

/-- An `Append` that returns an error returns `(0, 0)` and leaves `size`
alone, and the error stays in the writer. -/
theorem Store.Append_err (s s1 : Store) (p : List Byte) (n pos : Nat) (e : Err)
    (h : s.Append p = (s1, n, pos, some e)) :
    n = 0 ∧ pos = 0 ∧ s1.size = s.size ∧ s1.buf.err = some e := by
  unfold Store.Append binaryWrite at h
  simp only [] at h
  rcases hw1 : s.buf.Write s.file (putUint64 (u64 p.length)) with ⟨b1, f1, n1, e1⟩
  rw [hw1] at h
  cases e1 with
  | some e' =>
    simp only [Prod.mk.injEq, Option.some.injEq] at h
    obtain ⟨rfl, rfl, rfl, rfl⟩ := h
    exact ⟨rfl, rfl, rfl, Writer.Write_err _ _ _ _ _ _ _ hw1⟩
  | none =>
    simp only [] at h
    rcases hw2 : b1.Write f1 p with ⟨b2, f2, n2, e2⟩
    rw [hw2] at h
    cases e2 with
    | some e' =>
      simp only [Prod.mk.injEq, Option.some.injEq] at h
      obtain ⟨rfl, rfl, rfl, rfl⟩ := h
      exact ⟨rfl, rfl, rfl, Writer.Write_err _ _ _ _ _ _ _ hw2⟩
    | none => simp at h


theorem toInt64_of_ge {x : Nat} (h1 : 9223372036854775808 ≤ x)
    (h2 : x < 18446744073709551616) : toInt64 x < 0 := by
  unfold toInt64
  rw [u64_of_lt h2, if_neg (by omega)]
  omega


/-- A flush on a writer with a pending error returns that error and changes
nothing. -/
theorem Writer.Flush_pending (b : Writer) (f : File) (e : Err) (hb : b.err = some e) :
    b.Flush f = (b, f, some e) := by
  unfold Writer.Flush
  simp only [hb]

/-- The error of the writer is sticky: no call on the store clears it. -/
theorem Store.after_pending (s : Store) (c : StoreCall) (e : Err)
    (h : s.buf.err = some e) : (s.after c).buf.err = some e := by
  cases c with
  | append p =>
    show (s.Append p).1.buf.err = some e
    unfold Store.Append binaryWrite
    simp only [Writer.Write_pending _ _ _ e h]
    exact h
  | read pos =>
    show (s.Read pos).1.buf.err = some e
    rw [Store.Read_state, Writer.Flush_pending _ _ e h]
    exact h
  | readAt b off =>
    show (s.ReadAt b off).1.buf.err = some e
    rw [Store.ReadAt_state, Writer.Flush_pending _ _ e h]
    exact h

theorem Store.afterAll_pending (cs : List StoreCall) :
    ∀ (s : Store) (e : Err), s.buf.err = some e → (s.afterAll cs).buf.err = some e := by
  induction cs with
  | nil => intro s e h; exact h
  | cons c cs ih =>
    intro s e h
    exact ih (s.after c) e (Store.after_pending s c e h)

/-- The state left by the flush of `Read` and `ReadAt` when it records no
error. -/
theorem Store.flushed_inv (s : Store) (hinv : s.Inv)
    (h : (s.buf.Flush s.file).1.err = none) :
    Store.Inv { s with buf := (s.buf.Flush s.file).1, file := (s.buf.Flush s.file).2.1 } ∧
    (s.buf.Flush s.file).1.buf = [] := by
  rw [Writer.Flush_eq _ _ hinv.1] at h ⊢
  by_cases hc : s.buf.buf.length ≤ s.file.accepts
  · rw [if_pos hc]
    have := accepts_add_le s.file hinv.2.2.1
    refine ⟨⟨rfl, by simp, ?_, ?_⟩, rfl⟩
    · simp only [List.length_append]; omega
    · simp only [List.length_append, List.length_nil, Nat.add_zero]
      exact hinv.2.2.2
  · rw [if_neg hc] at h
    cases h

/-- Every call that leaves no error in the writer keeps the size invariant,
and a `Read` or `ReadAt` leaves the buffer empty. -/
theorem Store.after_inv (s : Store) (c : StoreCall) (hinv : s.Inv)
    (h : (s.after c).buf.err = none) :
    (s.after c).Inv ∧ (c.isRead = true → (s.after c).buf.buf = []) := by
  cases c with
  | append p =>
    refine ⟨?_, fun hr => by cases hr⟩
    change (s.Append p).1.buf.err = none at h
    show (s.Append p).1.Inv
    rcases ha : s.Append p with ⟨s1, n, pos, e⟩
    rw [ha] at h
    cases e with
    | none => exact (Store.Append_ok_spec s s1 p n pos hinv ha).1
    | some e =>
      have := (Store.Append_err s s1 p n pos e ha).2.2.2
      rw [this] at h
      cases h
  | read pos =>
    change (s.Read pos).1.buf.err = none at h
    show (s.Read pos).1.Inv ∧ (_ → (s.Read pos).1.buf.buf = [])
    rw [Store.Read_state] at h ⊢
    have := Store.flushed_inv s hinv h
    exact ⟨this.1, fun _ => this.2⟩
  | readAt b off =>
    change (s.ReadAt b off).1.buf.err = none at h
    show (s.ReadAt b off).1.Inv ∧ (_ → (s.ReadAt b off).1.buf.buf = [])
    rw [Store.ReadAt_state] at h ⊢
    have := Store.flushed_inv s hinv h
    exact ⟨this.1, fun _ => this.2⟩

theorem Store.afterAll_inv (cs : List StoreCall) :
    ∀ (s : Store), s.Inv → (s.afterAll cs).buf.err = none → (s.afterAll cs).Inv := by
  induction cs with
  | nil => intro s hinv _; exact hinv
  | cons c cs ih =>
    intro s hinv h
    cases he : (s.after c).buf.err with
    | none => exact ih (s.after c) (Store.after_inv s c hinv he).1 h
    | some e =>
      have := Store.afterAll_pending cs (s.after c) e he
      change (Store.afterAll (s.after c) cs).buf.err = none at h
      rw [this] at h
      cases h

/-- On a store on which no write has failed, the flush fails when the device
does not accept the buffered bytes. -/
theorem Store.flush_full (s : Store) (hinv : s.Inv) (h : s.file.accepts < s.buf.buf.length) :
    (s.buf.Flush s.file).2.2 = some Err.noSpace := by
  rw [Writer.Flush_eq _ _ hinv.1, if_neg (by omega)]

/-- When its flush fails, `Read` returns the error of the flush. -/
theorem Store.Read_flush_err (s : Store) (pos : Nat) (e : Err)
    (h : (s.buf.Flush s.file).2.2 = some e) : (s.Read pos).2 = .error e := by
  unfold Store.Read
  rcases hfl : s.buf.Flush s.file with ⟨b1, f1, e1⟩
  rw [hfl] at h
  simp only [] at h
  subst h
  rfl

/-- When its flush fails, `ReadAt` returns the error of the flush and reads
nothing. -/
theorem Store.ReadAt_flush_err (s : Store) (b : List Byte) (off : Int) (e : Err)
    (h : (s.buf.Flush s.file).2.2 = some e) : (s.ReadAt b off).2 = (b, 0, some e) := by
  unfold Store.ReadAt
  rcases hfl : s.buf.Flush s.file with ⟨b1, f1, e1⟩
  rw [hfl] at h
  simp only [] at h
  subst h
  rfl

/-- The first read of `Read`, of the 8-byte length, at a position at or past
the end of the file. -/
theorem File.ReadAt_past_end (f : File) (pos : Nat) (hpos : f.data.length ≤ pos)
    (h64 : pos < 18446744073709551616) :
    (f.ReadAt (List.replicate lenWidth 0) (toInt64 pos)).2.2 =
      some (if 9223372036854775808 ≤ pos then Err.negativeOffset
            else if maxInt < pos + 8 then Err.invalidArgument else Err.eof) := by
  unfold File.ReadAt
  by_cases hge : 9223372036854775808 ≤ pos
  · rw [if_pos (toInt64_of_ge hge h64), if_pos hge]
  · rw [toInt64_of_lt (by omega), if_neg (by omega), Int.toNat_ofNat, if_neg hge,
      if_neg (by simp [lenWidth])]
    simp only [List.length_replicate, lenWidth]
    by_cases hm : maxInt < pos + 8
    · rw [if_pos hm, if_pos hm]
    · rw [if_neg hm, if_neg hm, List.drop_of_length_le hpos]
      simp

/-! ## Offset index: the claims -/

/-- Claim C3, amended: for an index whose size is `12 * k` with `k < 2^32` and
at least 12 bytes left before the mapped capacity, `Write(off, pos)` succeeds
and a following `Read(k)` returns exactly `(off, pos)`. -/
theorem Index.Write_then_Read (i : Index) (k off pos : Nat)
    (hsz : i.size = 12 * k) (hroom : i.size + 12 ≤ i.mmap.length)
    (hk : k < 4294967296) (hoff : off < 4294967296) (hpos : pos < 18446744073709551616) :
    (i.Write off pos).2 = .ok () ∧ (i.Write off pos).1.Read (k : Int) = .ok (off, pos) := by
  rw [Index.Write_of_room i off pos hroom (by omega)]
  refine ⟨rfl, ?_⟩
  rw [Index.Read_eq]
  simp only [Index.slot_natCast _ hk]
  have hl : (List.take i.size i.mmap).length = k * 12 := by
    rw [List.length_take]; omega
  rw [if_neg (by omega), if_neg (by omega), if_pos, entryAt_mid _ _ hl hoff hpos]
  simp only [List.length_append, List.length_take, List.length_drop, length_putUint32,
    length_putUint64]
  omega

theorem Index.Write_then_Read_witness :
    (emptyIndex 12).size = 12 * 0 ∧ (emptyIndex 12).size + 12 ≤ (emptyIndex 12).mmap.length ∧
    ((emptyIndex 12).Write 7 9).2 = .ok () ∧
    ((emptyIndex 12).Write 7 9).1.Read ((0 : Nat) : Int) = .ok (7, 9) :=
  ⟨by decide, by decide,
    Index.Write_then_Read (emptyIndex 12) 0 7 9 (by decide) (by decide) (by decide)
      (by decide) (by decide)⟩

/-- Claim C3 as stated fails: on an index of size `12 * 2^32` with 12 bytes
left, `Write(1, 1)` succeeds and the following `Read(2^32)` returns the entry
of slot 0, `(0, 0)`, because the slot is truncated to 32 bits. -/
theorem Index.Write_then_Read_wraps :
    bigIndex.size = 12 * 4294967296 ∧ bigIndex.size + 12 ≤ bigIndex.mmap.length ∧
    (bigIndex.Write 1 1).2 = .ok () ∧
    (bigIndex.Write 1 1).1.Read 4294967296 = .ok (0, 0) := by
  have hlen : bigIndex.mmap.length = 51539607564 := List.length_replicate _ _
  have hsz : bigIndex.size = 51539607552 := rfl
  have h := Index.Read_after_Write_wraps bigIndex 4294967296 1 1 (by rw [hsz])
    (by rw [hlen, hsz]) (by rw [hsz]; decide) (by decide) (by decide)
  have hz : entryAt bigIndex.mmap 0 = (0, 0) := @entryAt_zeros 51539607564 (by decide)
  rw [hz] at h
  exact ⟨by rw [hsz], by rw [hlen, hsz], h.1, h.2⟩

/-- Claim C4, at capacity 40 and size 36: `Write(3, 39)` does not return
"index full"; it passes the guard (which asks for 4 free bytes, not 12),
stores the offset into bytes 36..40 and panics on the slice `mmap[40:48]`. -/
theorem Index.Write_slack_panics :
    (threeEntries 40).size = 36 ∧ (threeEntries 40).mmap.length = 40 ∧
    ((threeEntries 40).Write 3 39).2 = .panic ∧
    ((threeEntries 40).Write 3 39).1.mmap ≠ (threeEntries 40).mmap := by
  decide

/-- Claim C5, amended: for every index and every slot `≥ size / 12` that is
below `2^32`, or whose low 32 bits are `≥ size / 12` as well, `Read(slot)`
signals end-of-data. -/
theorem Index.Read_past_size (i : Index) (inp : Int)
    (h1 : ((i.size / 12 : Nat) : Int) ≤ inp)
    (h2 : inp < 4294967296 ∨ i.size / 12 ≤ u32OfInt inp) :
    i.Read inp = .error Err.eof := by
  rw [Index.Read_eq]
  by_cases h0 : i.size = 0
  · rw [if_pos h0]
  · rw [if_neg h0, if_pos]
    have hs : i.slot inp = u32OfInt inp := by
      unfold Index.slot
      rw [if_neg (by omega)]
    rw [hs]
    rcases h2 with h2 | h2
    · have : u32OfInt inp = inp.toNat := by
        unfold u32OfInt
        omega
      rw [this]
      omega
    · omega

theorem Index.Read_past_size_witness :
    ((((threeEntries 36).size / 12 : Nat) : Int) ≤ 3 ∧
      ((3 : Int) < 4294967296 ∨ (threeEntries 36).size / 12 ≤ u32OfInt 3)) ∧
    (threeEntries 36).Read 3 = .error Err.eof :=
  ⟨⟨by decide, Or.inl (by decide)⟩,
    Index.Read_past_size (threeEntries 36) 3 (by decide) (Or.inl (by decide))⟩

/-- Claim C5 as stated fails for slots of `2^32` and above: on the index that
holds the one entry `(7, 9)`, `Read(2^32)` returns `(7, 9)`. -/
theorem Index.Read_slot_wraps :
    ((oneEntry.size / 12 : Nat) : Int) ≤ 4294967296 ∧
    oneEntry.Read 4294967296 = .ok (7, 9) := by
  decide

/-- Claim C6, amended: after a run of successful writes from a start whose
size is a multiple of 12 (an empty index in particular), if the index holds
at most `2^32` entries then `Read(-1)` returns the pair of the most recent
write; and on an index of size 0, `Read(-1)` signals end-of-data. -/
theorem Index.Read_sentinel :
    (∀ (start i' : Index) (ws : List (Nat × Nat)) (off pos : Nat),
      12 ∣ start.size → start.writeAll (ws ++ [(off, pos)]) = some i' →
      i'.size / 12 ≤ 4294967296 → off < 4294967296 → pos < 18446744073709551616 →
      i'.Read (-1) = .ok (off, pos)) ∧
    (∀ i : Index, i.size = 0 → i.Read (-1) = .error Err.eof) := by
  constructor
  · intro start i' ws off pos hal hw hn hoff hpos
    rw [Index.writeAll_append] at hw
    cases hj : start.writeAll ws with
    | none => rw [hj] at hw; cases hw
    | some j =>
      rw [hj] at hw
      exact Index.Read_last_after_Write j i' off pos (Index.dvd_size_of_writeAll ws _ _ hal hj)
        (Index.writeAll_single j i' (off, pos) hw) hn hoff hpos
  · intro i h
    rw [Index.Read_eq, if_pos h]

theorem Index.Read_sentinel_witness :
    12 ∣ (emptyIndex 36).size ∧
    (emptyIndex 36).writeAll ([(0, 0), (1, 13)] ++ [(2, 26)]) = some (threeEntries 36) ∧
    (threeEntries 36).size / 12 ≤ 4294967296 ∧
    (threeEntries 36).Read (-1) = .ok (2, 26) ∧
    (emptyIndex 36).size = 0 ∧ (emptyIndex 36).Read (-1) = .error Err.eof :=
  ⟨by decide, by decide, by decide,
    Index.Read_sentinel.1 (emptyIndex 36) (threeEntries 36) [(0, 0), (1, 13)] 2 26
      (by decide) (by decide) (by decide) (by decide) (by decide),
    by decide, Index.Read_sentinel.2 (emptyIndex 36) (by decide)⟩

/-- Claim C6 as stated fails past `2^32` entries: from an empty index with
room for `2^32 + 1` entries, after `Write(1, 1)` and then `2^32` writes of
`(0, 0)`, all successful, `Read(-1)` returns `(1, 1)`, not the most recent
pair `(0, 0)`. -/
theorem Index.Read_sentinel_wraps :
    ((emptyIndex 51539607564).writeAll
        (((1, 1) :: List.replicate 4294967295 (0, 0)) ++ [(0, 0)])).map
      (fun i => i.Read (-1)) = some (.ok (1, 1)) := by
  have hlen : (List.replicate 4294967295 ((0, 0) : Nat × Nat) ++ [(0, 0)]).length
      = 4294967296 := by
    rw [List.length_append, List.length_replicate]; rfl
  rw [List.cons_append, emptyIndex_writeAll 51539607564 4294967297 _
    (by rw [List.length_cons, hlen]) (by decide) (by decide)]
  simp only [Option.map_some', Option.some.injEq]
  exact Index.Read_last_wraps _ (1, 1) _ _ rfl (by rw [hlen]) (by rw [hlen]) (by decide)
    (by decide) (by decide)

/-- Claim C7, amended: for an index opened on an empty file on which the `N`
writes `es` succeeded, with `N ≤ 2^32`, after a successful `Close` the
`newIndex` on the same file with the same `MaxIndexBytes` succeeds, the
reopened index has the size at close time, `12 * N`, `Read(k)` for `k < N`
returns the pair of the `k`-th write and `Read(-1)` returns the last one. -/
theorem Index.reopen_roundtrip (f : IndexFile) (c : Config) (es : List (Nat × Nat))
    (i0 i i1 : Index)
    (hempty : f.data = []) (hnew : newIndex f c = .ok i0)
    (hw : i0.writeAll es = some i) (hclose : i.Close = (i1, none))
    (hn : es.length ≤ 4294967296)
    (htyped : ∀ e ∈ es, e.1 < 4294967296 ∧ e.2 < 18446744073709551616) :
    ∃ i2, newIndex i1.file.Open c = .ok i2 ∧
      i2.size = i.size ∧ i.size = 12 * es.length ∧
      (∀ (k : Nat) (e : Nat × Nat), es[k]? = some e → i2.Read (k : Int) = .ok e) ∧
      (∀ e : Nat × Nat, es.getLast? = some e → i2.Read (-1) = .ok e) := by
  obtain ⟨hsz, hcap, i2, hre, h2s, h2m⟩ := reopen_state f c es i0 i i1 hempty hnew hw hclose
  refine ⟨i2, hre, by rw [h2s, hsz], hsz, ?_, ?_⟩
  · intro k e hk
    have hlt : k < es.length := by
      by_contra hcon
      rw [List.getElem?_eq_none (by omega)] at hk
      cases hk
    have ht := htyped e (List.getElem?_mem hk)
    refine Index.Read_encoded i2 es _ h2m h2s _ e ?_ ht.1 ht.2
    rw [Index.slot_natCast _ (by omega)]
    exact hk
  · intro e he
    rw [List.getLast?_eq_getElem?] at he
    have hlt : es.length - 1 < es.length := by
      by_contra hcon
      rw [List.getElem?_eq_none (by omega)] at he
      cases he
    have ht := htyped e (List.getElem?_mem he)
    refine Index.Read_encoded i2 es _ h2m h2s _ e ?_ ht.1 ht.2
    have hslot : i2.slot (-1) = es.length - 1 := by
      unfold Index.slot
      rw [if_pos rfl, h2s]
      simp only [u32, u64, entWidth, offWidth, posWidth]
      omega
    rw [hslot]
    exact he

theorem Index.reopen_roundtrip_witness :
    (({ data := [] } : IndexFile).data = [] ∧
      newIndex { data := [] } ⟨⟨36⟩⟩ = .ok (emptyIndex 36) ∧
      (emptyIndex 36).writeAll [(0, 0), (1, 13), (2, 26)] = some (threeEntries 36) ∧
      (threeEntries 36).Close = ((threeEntries 36).Close.1, none)) ∧
    ∃ i2, newIndex (threeEntries 36).Close.1.file.Open ⟨⟨36⟩⟩ = .ok i2 ∧
      i2.size = (threeEntries 36).size ∧
      (threeEntries 36).size = 12 * [((0 : Nat), (0 : Nat)), (1, 13), (2, 26)].length ∧
      (∀ (k : Nat) (e : Nat × Nat),
        [((0 : Nat), (0 : Nat)), (1, 13), (2, 26)][k]? = some e → i2.Read (k : Int) = .ok e) ∧
      (∀ e : Nat × Nat,
        [((0 : Nat), (0 : Nat)), (1, 13), (2, 26)].getLast? = some e → i2.Read (-1) = .ok e) :=
  ⟨⟨rfl, newIndex_empty 36 (by decide) (by decide), by decide, by decide⟩,
    Index.reopen_roundtrip { data := [] } ⟨⟨36⟩⟩ [(0, 0), (1, 13), (2, 26)]
      (emptyIndex 36) (threeEntries 36) (threeEntries 36).Close.1
      rfl (newIndex_empty 36 (by decide) (by decide)) (by decide) (by decide) (by decide)
      (by decide)⟩

/-- Claim C7 as stated fails past `2^32` entries: open an empty file with
room for `2^32 + 1` entries, write `(1, 1)` and then `2^32` times `(0, 0)`,
close and open again; the size is kept, but `Read(-1)` returns `(1, 1)`, not
the last pair written. -/
theorem Index.reopen_sentinel_wraps :
    (reopenAfter ⟨⟨51539607564⟩⟩ ((1, 1) :: List.replicate 4294967296 (0, 0))).map
      (fun i => (i.size, i.Read (-1))) = some (51539607564, .ok (1, 1)) := by
  have hlen : (List.replicate 4294967296 ((0, 0) : Nat × Nat)).length = 4294967296 :=
    List.length_replicate _ _
  obtain ⟨i2, hre, h2s, h2m⟩ := reopenAfter_eq 51539607564 4294967297
    ((1, 1) :: List.replicate 4294967296 (0, 0)) (by rw [List.length_cons, hlen])
    (by decide) (by decide) (by decide)
  rw [hre]
  simp only [Option.map_some', Option.some.injEq, Prod.mk.injEq]
  refine ⟨by rw [h2s], ?_⟩
  exact Index.Read_last_wraps i2 (1, 1) _ _ h2m (by rw [h2s, hlen]) (by rw [hlen])
    (by rw [h2s]; decide) (by decide) (by decide)

/-- Claim C9: whenever `Write(off, pos)` succeeds, the mapped bytes at
`[size, size+4)` are the big-endian bytes of `off`, those at
`[size+4, size+12)` the big-endian bytes of `pos`, every byte outside
`[size, size+12)` and the length of the region are unchanged, and `size` has
advanced by exactly 12. -/
theorem Index.Write_frame (i i' : Index) (off pos : Nat)
    (h : i.Write off pos = (i', .ok ())) :
    i'.size = i.size + 12 ∧
    i'.mmap.length = i.mmap.length ∧
    slice i'.mmap i.size (i.size + 4) = some (putUint32 off) ∧
    slice i'.mmap (i.size + 4) (i.size + 12) = some (putUint64 pos) ∧
    (∀ j, j < i.size ∨ i.size + 12 ≤ j → i'.mmap[j]? = i.mmap[j]?) ∧
    i'.file = i.file := by
  have hr := @Index.room_of_Write_ok i off pos (by rw [h])
  rw [Index.Write_of_room i off pos hr.1 hr.2] at h
  cases h
  have hl : (List.take i.size i.mmap ++ (putUint32 off ++ putUint64 pos)
      ++ List.drop (i.size + 12) i.mmap).length = i.mmap.length := by
    simp only [List.length_append, List.length_take, List.length_drop, length_putUint32,
      length_putUint64]
    omega
  have ht : (List.take i.size i.mmap).length = i.size := by
    rw [List.length_take]; omega
  refine ⟨rfl, hl, ?_, ?_, ?_, rfl⟩
  · rw [slice_of_le (by omega) (by rw [hl]; omega)]
    rw [List.append_assoc, List.drop_left' ht]
    have t4 : i.size + 4 - i.size = 4 := by omega
    rw [t4]
    rfl
  · rw [slice_of_le (by omega) (by rw [hl]; omega)]
    have : (List.take i.size i.mmap ++ (putUint32 off ++ putUint64 pos)
        ++ List.drop (i.size + 12) i.mmap).drop (i.size + 4)
        = putUint64 pos ++ List.drop (i.size + 12) i.mmap := by
      rw [← List.drop_drop, List.append_assoc, List.drop_left' ht]
      rfl
    rw [this]
    have t8 : i.size + 12 - (i.size + 4) = 8 := by omega
    rw [t8]
    rfl
  · intro j hj
    exact getElem?_splice_outside _ rfl hr.1 hj

theorem Index.Write_frame_witness :
    (threeEntries 48).Write 3 39 = (((threeEntries 48).Write 3 39).1, .ok ()) ∧
    ((threeEntries 48).Write 3 39).1.size = (threeEntries 48).size + 12 ∧
    ((threeEntries 48).Write 3 39).1.mmap.length = (threeEntries 48).mmap.length ∧
    slice ((threeEntries 48).Write 3 39).1.mmap (threeEntries 48).size
      ((threeEntries 48).size + 4) = some (putUint32 3) ∧
    slice ((threeEntries 48).Write 3 39).1.mmap ((threeEntries 48).size + 4)
      ((threeEntries 48).size + 12) = some (putUint64 39) ∧
    (∀ j, j < (threeEntries 48).size ∨ (threeEntries 48).size + 12 ≤ j →
      ((threeEntries 48).Write 3 39).1.mmap[j]? = (threeEntries 48).mmap[j]?) ∧
    ((threeEntries 48).Write 3 39).1.file = (threeEntries 48).file :=
  ⟨by decide, Index.Write_frame (threeEntries 48) _ 3 39 (by decide)⟩

/-- Claim C10, amended: `Close` makes its calls in the order flush, sync,
truncate to `size`, close, and stops at the first one that fails: the calls
made are the first `closeReach` of the four, the error returned is that of
the first failing step, the handle is closed exactly when `Close` returns no
error, and in that case the file holds the mapped bytes truncated to `size`. -/
theorem Index.Close_stops_at_first_failure (i : Index) (hopen : i.file.isOpen = true) :
    i.Close.1.file.calls = i.file.calls ++ i.closeSteps.take i.closeReach ∧
    i.Close.2 = (i.file.faults.msync <|> i.file.faults.fsync <|> i.truncateErr
                  <|> i.file.faults.close) ∧
    (i.Close.1.file.isOpen = false ↔ i.Close.2 = none) ∧
    (i.Close.2 = none →
      i.Close.1.file.data = truncateBytes i.mmap (toInt64 i.size).toNat) := by
  rw [Index.Close_eq i hopen]
  unfold Index.closeReach Index.closeSteps
  cases hm : i.file.faults.msync with
  | some e => simp [hopen]
  | none =>
    cases hf : i.file.faults.fsync with
    | some e => simp [hopen]
    | none =>
      cases ht : i.truncateErr with
      | some e => simp [hopen]
      | none =>
        cases hc : i.file.faults.close with
        | some e => simp [hopen]
        | none => simp

theorem Index.Close_stops_at_first_failure_witness :
    (threeEntries 48).file.isOpen = true ∧
    (threeEntries 48).Close.1.file.calls
      = (threeEntries 48).file.calls
          ++ (threeEntries 48).closeSteps.take (threeEntries 48).closeReach ∧
    (threeEntries 48).Close.2
      = ((threeEntries 48).file.faults.msync <|> (threeEntries 48).file.faults.fsync
          <|> (threeEntries 48).truncateErr <|> (threeEntries 48).file.faults.close) ∧
    ((threeEntries 48).Close.1.file.isOpen = false ↔ (threeEntries 48).Close.2 = none) ∧
    ((threeEntries 48).Close.2 = none →
      (threeEntries 48).Close.1.file.data
        = truncateBytes (threeEntries 48).mmap (toInt64 (threeEntries 48).size).toNat) :=
  ⟨by decide, Index.Close_stops_at_first_failure (threeEntries 48) (by decide)⟩

/-- Claim C10 as stated fails: when the flush of the mapped pages fails, `Close`
returns that error having made no further call; the file is not truncated to
`size` (it keeps its 48 bytes, `size` being 36) and the handle stays open. -/
theorem Index.Close_skips_after_flush_failure :
    failingFlush.Close.2 = some (Err.fault 5) ∧
    failingFlush.Close.1.file.calls = [Call.msync] ∧
    failingFlush.Close.1.file.isOpen = true ∧
    failingFlush.size = 36 ∧ failingFlush.Close.1.file.data.length = 48 := by
  decide

/-- Claim C11: on an index whose size is a multiple of 12 and at most the
mapped capacity, after any `Write` or `Read`, whatever its outcome, and so
after any sequence of them, size is still a multiple of 12 and at most the
mapped capacity; and `Read` changes neither size nor the mapped bytes. -/
theorem Index.size_aligned_and_bounded (i : Index) (hal : 12 ∣ i.size) (hle : i.size ≤ i.mmap.length) :
    (∀ c : IndexCall, 12 ∣ (i.after c).size ∧ (i.after c).size ≤ (i.after c).mmap.length) ∧
    (∀ cs : List IndexCall,
      12 ∣ (i.afterAll cs).size ∧ (i.afterAll cs).size ≤ (i.afterAll cs).mmap.length) ∧
    (∀ inp : Int, (i.after (.read inp)).size = i.size ∧ (i.after (.read inp)).mmap = i.mmap) := by
  have step : ∀ (j : Index) (c : IndexCall), 12 ∣ j.size → j.size ≤ j.mmap.length →
      12 ∣ (j.after c).size ∧ (j.after c).size ≤ (j.after c).mmap.length := by
    intro j c h1 h2
    cases c with
    | write off pos => exact Index.Write_keeps_bound j off pos h1 h2
    | read inp => exact ⟨h1, h2⟩
  refine ⟨fun c => step i c hal hle, ?_, fun _ => ⟨rfl, rfl⟩⟩
  intro cs
  induction cs generalizing i with
  | nil => exact ⟨hal, hle⟩
  | cons c cs ih =>
    have := step i c hal hle
    exact ih (i.after c) this.1 this.2

theorem Index.size_aligned_and_bounded_witness :
    (12 ∣ (threeEntries 40).size ∧ (threeEntries 40).size ≤ (threeEntries 40).mmap.length) ∧
    ((∀ c : IndexCall, 12 ∣ ((threeEntries 40).after c).size ∧
        ((threeEntries 40).after c).size ≤ ((threeEntries 40).after c).mmap.length) ∧
      (∀ cs : List IndexCall, 12 ∣ ((threeEntries 40).afterAll cs).size ∧
        ((threeEntries 40).afterAll cs).size ≤ ((threeEntries 40).afterAll cs).mmap.length) ∧
      (∀ inp : Int, ((threeEntries 40).after (.read inp)).size = (threeEntries 40).size ∧
        ((threeEntries 40).after (.read inp)).mmap = (threeEntries 40).mmap)) :=
  ⟨⟨by decide, by decide⟩, Index.size_aligned_and_bounded (threeEntries 40) (by decide) (by decide)⟩

/-- Claim C12, at a file of 36 bytes and `MaxIndexBytes = 24`: `newIndex`
succeeds and keeps as size the 36 bytes of the file status, but its call of
`os.Truncate`, which the comment in the code describes as extending the file,
cuts the file to 24 bytes, and 24 bytes are mapped: size exceeds the mapped
capacity, and `Read(-1)` and `Read(2)` on the index panic. -/
theorem newIndex_size_exceeds_capacity :
    threeEntryFile.data.length = 36 ∧
    (newIndex threeEntryFile ⟨⟨24⟩⟩).toOption.map
        (fun i => (i.size, i.mmap.length, i.file.data.length)) = some (36, 24, 24) ∧
    (newIndex threeEntryFile ⟨⟨24⟩⟩).toOption.map
        (fun i => (i.Read (-1), i.Read 2)) = some (.panic, .panic) := by
  decide

/-- Claim C13: on an index with size at most the mapped capacity, for every
slot argument, `Read` does not panic (it indexes nothing outside the mapped
region); when it returns an entry, the twelve bytes it decoded are those of a
slot `k` with `k * 12 + 12 ≤ size`; and its result does not depend on the
bytes of the region from `size` on. -/
theorem Index.Read_within_size (i : Index) (inp : Int) (hle : i.size ≤ i.mmap.length) :
    i.Read inp ≠ .panic ∧
    (∀ e, i.Read inp = .ok e →
      ∃ k, k * 12 + 12 ≤ i.size ∧
        slice i.mmap (k * 12) (k * 12 + 4) = some ((i.mmap.drop (k * 12)).take 4) ∧
        slice i.mmap (k * 12 + 4) (k * 12 + 12) = some ((i.mmap.drop (k * 12 + 4)).take 8) ∧
        e = (uint32 ((i.mmap.drop (k * 12)).take 4),
             uint64 ((i.mmap.drop (k * 12 + 4)).take 8))) ∧
    (∀ m : List Byte, m.length = i.mmap.length → m.take i.size = i.mmap.take i.size →
      Index.Read { i with mmap := m } inp = i.Read inp) := by
  refine ⟨?_, ?_, ?_⟩
  · rw [Index.Read_eq]
    split
    · simp
    · split
      · simp
      · rw [if_pos (by omega)]
        simp
  · intro e he
    rw [Index.Read_eq] at he
    split at he
    · cases he
    · split at he
      · cases he
      · rename_i h0 h1
        rw [if_pos (by omega)] at he
        simp only [Outcome.ok.injEq] at he
        refine ⟨i.slot inp, by omega, ?_, ?_, he.symm⟩
        · rw [slice_of_le (by omega) (by omega)]
          have : i.slot inp * 12 + 4 - i.slot inp * 12 = 4 := by omega
          rw [this]
        · rw [slice_of_le (by omega) (by omega)]
          have : i.slot inp * 12 + 12 - (i.slot inp * 12 + 4) = 8 := by omega
          rw [this]
  · intro m hm ht
    rw [Index.Read_eq, Index.Read_eq]
    have hslot : Index.slot { i with mmap := m } inp = i.slot inp := rfl
    rw [hslot]
    simp only [hm]
    by_cases h0 : i.size = 0
    · rw [if_pos h0, if_pos h0]
    · rw [if_neg h0, if_neg h0]
      by_cases h1 : i.size < i.slot inp * 12 + 12
      · rw [if_pos h1, if_pos h1]
      · rw [if_neg h1, if_neg h1, if_pos (by omega), if_pos (by omega)]
        congr 1
        have e1 := @entryAt_take m i.size (i.slot inp) (by omega) (by omega)
        have e2 := @entryAt_take i.mmap i.size (i.slot inp) (by omega) (by omega)
        rw [← e1, ← e2, ht]

theorem Index.Read_within_size_witness :
    (threeEntries 48).size ≤ (threeEntries 48).mmap.length ∧
    ((threeEntries 48).Read (-1) ≠ .panic ∧
      (∀ e, (threeEntries 48).Read (-1) = .ok e →
        ∃ k, k * 12 + 12 ≤ (threeEntries 48).size ∧
          slice (threeEntries 48).mmap (k * 12) (k * 12 + 4)
            = some (((threeEntries 48).mmap.drop (k * 12)).take 4) ∧
          slice (threeEntries 48).mmap (k * 12 + 4) (k * 12 + 12)
            = some (((threeEntries 48).mmap.drop (k * 12 + 4)).take 8) ∧
          e = (uint32 (((threeEntries 48).mmap.drop (k * 12)).take 4),
               uint64 (((threeEntries 48).mmap.drop (k * 12 + 4)).take 8))) ∧
      (∀ m : List Byte, m.length = (threeEntries 48).mmap.length →
        m.take (threeEntries 48).size = (threeEntries 48).mmap.take (threeEntries 48).size →
        Index.Read { threeEntries 48 with mmap := m } (-1) = (threeEntries 48).Read (-1))) :=
  ⟨by decide, Index.Read_within_size (threeEntries 48) (-1) (by decide)⟩

/-- Claim C19: every error `Write` returns and every error `Read` returns is
the one value `io.EOF`, so the error of a failed `Write` equals the error of
a failed `Read`; a full index (size equal to a 12-aligned capacity) makes
`Write` return it and an empty index makes `Read` return it. -/
theorem Index.errors_indistinguishable :
    (∀ (i : Index) (off pos : Nat) (e : Err),
      (i.Write off pos).2 = .error e → e = Err.eof) ∧
    (∀ (i : Index) (inp : Int) (e : Err), i.Read inp = .error e → e = Err.eof) ∧
    (∀ (i j : Index) (off pos : Nat) (inp : Int) (e1 e2 : Err),
      (i.Write off pos).2 = .error e1 → j.Read inp = .error e2 → e1 = e2) ∧
    (∀ (i : Index) (off pos : Nat), i.mmap.length ≤ maxInt → i.size ≤ i.mmap.length →
      12 ∣ i.size → 12 ∣ i.mmap.length → i.mmap.length < i.size + 12 →
      i.Write off pos = (i, .error Err.eof)) ∧
    (∀ (j : Index) (inp : Int), j.size = 0 → j.Read inp = .error Err.eof) := by
  have hw : ∀ (i : Index) (off pos : Nat) (e : Err),
      (i.Write off pos).2 = .error e → e = Err.eof := by
    intro i off pos e h
    unfold Index.Write at h
    split at h
    · simp only [Outcome.error.injEq] at h
      exact h.symm
    · split at h
      · cases h
      · simp only [] at h
        split at h
        · cases h
        · cases h
  have hr : ∀ (i : Index) (inp : Int) (e : Err), i.Read inp = .error e → e = Err.eof := by
    intro i inp e h
    rw [Index.Read_eq] at h
    split at h
    · simp only [Outcome.error.injEq] at h
      exact h.symm
    · split at h
      · simp only [Outcome.error.injEq] at h
        exact h.symm
      · split at h
        · cases h
        · cases h
  refine ⟨hw, hr, ?_, ?_, ?_⟩
  · intro i j off pos inp e1 e2 h1 h2
    rw [hw i off pos e1 h1, hr j inp e2 h2]
  · intro i off pos hmax hle h1 h2 h3
    have heq : i.mmap.length = i.size := by omega
    unfold Index.Write
    rw [if_pos]
    rw [u64_of_lt (by unfold maxInt offWidth at *; omega)]
    unfold offWidth
    omega
  · intro j inp h
    rw [Index.Read_eq, if_pos h]

theorem Index.errors_indistinguishable_witness :
    (((threeEntries 36).Write 3 39).2 = .error Err.eof ∧
      (emptyIndex 36).Read 0 = .error Err.eof) ∧
    Err.eof = Err.eof :=
  ⟨⟨by decide, by decide⟩,
    Index.errors_indistinguishable.2.2.1 (threeEntries 36) (emptyIndex 36) 3 39 0 Err.eof Err.eof
      (by decide) (by decide)⟩

/-- Claim C20, amended: `Read(slot)` returns end-of-data for every negative
slot other than -1 whose low 32 bits are at least `size / 12`, so for every
slot with `size / 12 - 2^32 ≤ slot ≤ -2`; and `Read(-1)` returns end-of-data
on an index whose size is between 1 and 11 bytes. -/
theorem Index.Read_negative_slot :
    (∀ (i : Index) (inp : Int), inp < 0 → inp ≠ -1 → i.size / 12 ≤ u32OfInt inp →
      i.Read inp = .error Err.eof) ∧
    (∀ (i : Index) (inp : Int), (i.size / 12 : Nat) - 4294967296 ≤ inp → inp ≤ -2 →
      i.Read inp = .error Err.eof) ∧
    (∀ i : Index, 1 ≤ i.size → i.size ≤ 11 → i.Read (-1) = .error Err.eof) := by
  have h1 : ∀ (i : Index) (inp : Int), inp < 0 → inp ≠ -1 → i.size / 12 ≤ u32OfInt inp →
      i.Read inp = .error Err.eof := by
    intro i inp _ hne h
    rw [Index.Read_eq]
    by_cases h0 : i.size = 0
    · rw [if_pos h0]
    · rw [if_neg h0, if_pos]
      have hs : i.slot inp = u32OfInt inp := by
        unfold Index.slot
        rw [if_neg hne]
      rw [hs]
      omega
  refine ⟨h1, ?_, ?_⟩
  · intro i inp hlo hhi
    refine h1 i inp (by omega) (by omega) ?_
    unfold u32OfInt
    omega
  · intro i hlo hhi
    rw [Index.Read_eq, if_neg (by omega), if_pos]
    have hs : i.slot (-1) = 4294967295 := by
      unfold Index.slot
      rw [if_pos rfl]
      have : i.size / entWidth = 0 := by
        unfold entWidth offWidth posWidth
        omega
      rw [this]
      rfl
    rw [hs]
    omega

theorem Index.Read_negative_slot_witness :
    (((-2 : Int) < 0 ∧ (-2 : Int) ≠ -1 ∧ (threeEntries 36).size / 12 ≤ u32OfInt (-2)) ∧
      (threeEntries 36).Read (-2) = .error Err.eof) ∧
    ((1 ≤ (Index.mk { data := [] } (List.replicate 12 0) 7).size ∧
        (Index.mk { data := [] } (List.replicate 12 0) 7).size ≤ 11) ∧
      (Index.mk { data := [] } (List.replicate 12 0) 7).Read (-1) = .error Err.eof) :=
  ⟨⟨⟨by decide, by decide, by decide⟩,
      Index.Read_negative_slot.1 (threeEntries 36) (-2) (by decide) (by decide) (by decide)⟩,
    ⟨⟨by decide, by decide⟩,
      Index.Read_negative_slot.2.2 (Index.mk { data := [] } (List.replicate 12 0) 7)
        (by decide) (by decide)⟩⟩

/-- Claim C20 as stated fails for negative slots whose low 32 bits name a
slot in use: on the index that holds the one entry `(7, 9)`, within its mapped
capacity, `Read(-2^32)` returns `(7, 9)`. -/
theorem Index.Read_negative_slot_wraps :
    oneEntry.size ≤ oneEntry.mmap.length ∧ oneEntry.Read (-4294967296) = .ok (7, 9) := by
  decide

/-! ## Record store: the claims -/

/-- Claim C1, amended: on a store reached from `newStore` by successful
appends, if `Append(p)` succeeds and returns `pos` and the flush with which
the following `Read(pos)` begins succeeds (the device accepts the bytes still
in the buffer), then that `Read(pos)` returns exactly `p` (the empty `p`
included); and when the record fits into the write buffer the file is
untouched by the append, the record being only in the buffer when `Read` is
called. -/
theorem Store.Append_then_Read (f : File) (s0 s s1 : Store) (ps : List (List Byte)) (p : List Byte)
    (n pos : Nat)
    (hf : f.data.length ≤ maxInt) (hnew : newStore f = .ok s0)
    (hall : s0.appendAll ps = some s) (happ : s.Append p = (s1, n, pos, none))
    (hroom : s1.buf.buf.length ≤ s1.file.accepts) :
    (s1.Read pos).2 = .ok p ∧
    (s.buf.buf.length + 8 + p.length ≤ defaultBufSize →
      s1.file = s.file ∧ s1.buf.buf = s.buf.buf ++ frame p) := by
  obtain ⟨hinv0, _, _, _⟩ := newStore_ok_inv hnew hf
  obtain ⟨hinv, _, _⟩ := Store.appendAll_spec ps s0 s hinv0 hall
  obtain ⟨hinv1, hst1, _, hpos, hsz1, _, _⟩ := Store.Append_ok_spec s s1 p n pos hinv happ
  constructor
  · obtain ⟨hfl, hmax⟩ := Store.flush_ok s1 hinv1 hroom
    have hlen := congrArg List.length hst1
    rw [List.length_append, length_frame, ← hinv.size_eq] at hlen
    have hd : s1.stream = s.stream ++ (putUint64 p.length ++ (p ++ [])) := by
      rw [hst1]; simp [frame]
    have hd2 : s1.stream = (s.stream ++ putUint64 p.length) ++ (p ++ []) := by
      rw [hd]; simp
    have hlen1 : s1.stream.length = s.stream.length + (8 + p.length) := by
      rw [hst1, List.length_append, length_frame]
    have hposlt : pos < 9223372036854775808 := by unfold maxInt at hmax; omega
    unfold Store.Read
    rw [hfl]
    simp only []
    rw [File.ReadAt_inside _ s.stream (putUint64 p.length) (p ++ []) _ pos hd
      (by rw [hpos, hinv.size_eq])
      (by rw [length_putUint64, hpos, hinv.size_eq]; omega)
      (by simp [lenWidth, length_putUint64])]
    simp only []
    rw [uint64_putUint64 (by unfold maxInt at hmax; omega), if_neg (by omega)]
    have h8 : u64 (pos + lenWidth) = pos + 8 :=
      u64_of_lt (by unfold lenWidth; omega)
    rw [h8, File.ReadAt_inside _ (s.stream ++ putUint64 p.length) p [] _ (pos + 8) hd2
      (by rw [List.length_append, length_putUint64, hpos, hinv.size_eq])
      (by rw [hpos, hinv.size_eq]; omega) (by simp)]
  · intro hsmall
    have ha := Store.Append_small s p hinv.1 hsmall
    rw [happ] at ha
    exact ⟨ha.1, ha.2.1⟩

theorem Store.Append_then_Read_witness :
    (freshFile.data.length ≤ maxInt ∧ newStore freshFile = .ok freshStore ∧
      freshStore.appendAll [hello] = some (freshStore.Append hello).1 ∧
      (freshStore.Append hello).1.Append [] = (((freshStore.Append hello).1.Append []).1, 8, 13, none) ∧
      ((freshStore.Append hello).1.Append []).1.buf.buf.length
        ≤ ((freshStore.Append hello).1.Append []).1.file.accepts) ∧
    ((((freshStore.Append hello).1.Append []).1.Read 13).2 = .ok [] ∧
      ((freshStore.Append hello).1.buf.buf.length + 8 + ([] : List Byte).length ≤ defaultBufSize →
        ((freshStore.Append hello).1.Append []).1.file = (freshStore.Append hello).1.file ∧
        ((freshStore.Append hello).1.Append []).1.buf.buf
          = (freshStore.Append hello).1.buf.buf ++ frame [])) :=
  ⟨⟨by decide, rfl, by decide, by decide, by decide⟩,
    Store.Append_then_Read freshFile freshStore (freshStore.Append hello).1
      ((freshStore.Append hello).1.Append []).1 [hello] [] 8 13
      (by decide) rfl (by decide) (by decide) (by decide)⟩

/-- Claim C1 as stated fails on a device that accepts no more bytes: on an
empty file there, `Append("hello")` succeeds, returning 13 bytes written at
position 0 with the record held in the buffer, and the following `Read(0)`
fails with the error of its flush. -/
theorem Store.Read_after_Append_on_full_device :
    newStore fullFile = .ok { file := fullFile, buf := {}, size := 0 } ∧
    Store.Append { file := fullFile, buf := {}, size := 0 } hello
      = (bufferedOnFullDevice, 13, 0, none) ∧
    (bufferedOnFullDevice.Read 0).2 = .error Err.noSpace :=
  ⟨rfl, by decide, by decide⟩

/-- Claim C2: on a store opened on an empty file, after the successful appends
of `ps`, a successful `Append(p)` returns `8 + len(p)` bytes written and the
position `sum of (8 + len(q))` over the earlier payloads `q` (0 for the
first), and leaves `size = position + bytesWritten`. -/
theorem Store.Append_positions (f : File) (s0 s s1 : Store) (ps : List (List Byte)) (p : List Byte)
    (n pos : Nat)
    (hempty : f.data = []) (hnew : newStore f = .ok s0)
    (hall : s0.appendAll ps = some s) (happ : s.Append p = (s1, n, pos, none)) :
    n = 8 + p.length ∧ pos = (ps.map (fun q => 8 + q.length)).sum ∧ s1.size = pos + n := by
  obtain ⟨hinv0, _, _, hs0⟩ := newStore_ok_inv hnew (by rw [hempty]; simp)
  obtain ⟨hinv, _, hsz⟩ := Store.appendAll_spec ps s0 s hinv0 hall
  obtain ⟨_, _, hn, hpos, hsz1, _, _⟩ := Store.Append_ok_spec s s1 p n pos hinv happ
  rw [hs0, hempty] at hsz
  simp only [List.length_nil, Nat.zero_add] at hsz
  refine ⟨hn, by rw [hpos, hsz], by rw [hsz1, hpos, hn]⟩

theorem Store.Append_positions_witness :
    (freshFile.data = [] ∧ newStore freshFile = .ok freshStore ∧
      freshStore.appendAll [hello] = some (freshStore.Append hello).1 ∧
      (freshStore.Append hello).1.Append world
        = (((freshStore.Append hello).1.Append world).1, 13, 13, none)) ∧
    (13 = 8 + world.length ∧ 13 = ([hello].map (fun q => 8 + q.length)).sum ∧
      ((freshStore.Append hello).1.Append world).1.size = 13 + 13) :=
  ⟨⟨rfl, rfl, by decide, by decide⟩,
    Store.Append_positions freshFile freshStore (freshStore.Append hello).1
      ((freshStore.Append hello).1.Append world).1 [hello] world 13 13
      rfl rfl (by decide) (by decide)⟩

/-- Claim C8: on a store opened on an empty file, after the successful appends
of `ps`, once the buffer has been flushed (as every `Read` does first) the
file holds exactly the records of `ps` in append order, each as its 8-byte
big-endian length followed by its payload, and the length of the file is the
size of the store. -/
theorem Store.file_format (f : File) (s0 s : Store) (ps : List (List Byte)) (b1 : Writer) (f1 : File)
    (hempty : f.data = []) (hnew : newStore f = .ok s0)
    (hall : s0.appendAll ps = some s) (hflush : s.buf.Flush s.file = (b1, f1, none)) :
    f1.data = encodeRecords ps ∧ f1.data.length = s.size ∧ b1.buf = [] ∧
    (∀ pos, (s.Read pos).1.file = f1 ∧ (s.Read pos).1.buf = b1 ∧
      (s.Read pos).1.size = s.size) := by
  obtain ⟨hinv0, hf0, hb0, hs0⟩ := newStore_ok_inv hnew (by rw [hempty]; simp)
  obtain ⟨hinv, hst, hsz⟩ := Store.appendAll_spec ps s0 s hinv0 hall
  have hst0 : s0.stream = [] := by unfold Store.stream; rw [hf0, hempty, hb0]; rfl
  rw [hst0, List.nil_append] at hst
  have hfl := Writer.Flush_eq s.buf s.file hinv.1
  rw [hflush] at hfl
  by_cases hc : s.buf.buf.length ≤ s.file.accepts
  · rw [if_pos hc] at hfl
    simp only [Prod.mk.injEq, and_true] at hfl
    obtain ⟨rfl, rfl⟩ := hfl
    refine ⟨hst, by rw [hinv.size_eq]; rfl, rfl, ?_⟩
    intro pos
    unfold Store.Read
    rw [hflush]
    simp only []
    repeat (first | exact ⟨rfl, rfl, rfl⟩ | split)
  · rw [if_neg hc] at hfl
    simp at hfl

theorem Store.file_format_witness :
    (freshFile.data = [] ∧ newStore freshFile = .ok freshStore ∧
      freshStore.appendAll [hello, world] = some ((freshStore.Append hello).1.Append world).1 ∧
      ((freshStore.Append hello).1.Append world).1.buf.Flush
          ((freshStore.Append hello).1.Append world).1.file
        = ((((freshStore.Append hello).1.Append world).1.Read 0).1.buf,
            (((freshStore.Append hello).1.Append world).1.Read 0).1.file, none)) ∧
    ((((freshStore.Append hello).1.Append world).1.Read 0).1.file.data
        = encodeRecords [hello, world] ∧
      (((freshStore.Append hello).1.Append world).1.Read 0).1.file.data.length
        = ((freshStore.Append hello).1.Append world).1.size ∧
      (((freshStore.Append hello).1.Append world).1.Read 0).1.buf.buf = [] ∧
      (∀ pos, (((freshStore.Append hello).1.Append world).1.Read pos).1.file
          = (((freshStore.Append hello).1.Append world).1.Read 0).1.file ∧
        (((freshStore.Append hello).1.Append world).1.Read pos).1.buf
          = (((freshStore.Append hello).1.Append world).1.Read 0).1.buf ∧
        (((freshStore.Append hello).1.Append world).1.Read pos).1.size
          = ((freshStore.Append hello).1.Append world).1.size)) :=
  ⟨⟨rfl, rfl, by decide, by decide⟩,
    Store.file_format freshFile freshStore ((freshStore.Append hello).1.Append world).1
      [hello, world] _ _ rfl rfl (by decide) (by decide)⟩

/-- Claim C14, amended: on a store reached from `newStore` by successful
appends, `Read(pos)` for a position at or past the size returns no payload
but an error; the error is end-of-data when the flush with which `Read`
begins succeeds and `pos + 8 ≤ 2^63 - 1`.  Past that bound the file refuses
the read (invalid argument below `2^63`, negative offset from `2^63` on), and
when the flush fails the error is that of the flush. -/
theorem Store.Read_past_end (f : File) (s0 s : Store) (ps : List (List Byte)) (pos : Nat)
    (hf : f.data.length ≤ maxInt) (hnew : newStore f = .ok s0)
    (hall : s0.appendAll ps = some s)
    (hpos : s.size ≤ pos) (h64 : pos < 18446744073709551616) :
    (∃ e, (s.Read pos).2 = .error e) ∧
    (s.buf.buf.length ≤ s.file.accepts →
      (pos + 8 ≤ maxInt → (s.Read pos).2 = .error Err.eof) ∧
      (maxInt < pos + 8 → pos < 9223372036854775808 →
        (s.Read pos).2 = .error Err.invalidArgument) ∧
      (9223372036854775808 ≤ pos → (s.Read pos).2 = .error Err.negativeOffset)) ∧
    (s.file.accepts < s.buf.buf.length → (s.Read pos).2 = .error Err.noSpace) := by
  obtain ⟨hinv0, _, _, _⟩ := newStore_ok_inv hnew hf
  obtain ⟨hinv, _, _⟩ := Store.appendAll_spec ps s0 s hinv0 hall
  have hsz := hinv.size_eq
  have hfull : s.file.accepts < s.buf.buf.length → (s.Read pos).2 = .error Err.noSpace :=
    fun h => Store.Read_flush_err s pos _ (Store.flush_full s hinv h)
  have hok : s.buf.buf.length ≤ s.file.accepts →
      (s.Read pos).2 = .error (if 9223372036854775808 ≤ pos then Err.negativeOffset
            else if maxInt < pos + 8 then Err.invalidArgument else Err.eof) := by
    intro hroom
    obtain ⟨hfl, hmax⟩ := Store.flush_ok s hinv hroom
    have hr := File.ReadAt_past_end
      { s.file with data := s.stream, room := s.file.room - s.buf.buf.length } pos
      (by show s.stream.length ≤ pos; omega) h64
    unfold Store.Read
    rw [hfl]
    simp only []
    rcases hra : File.ReadAt
        { s.file with data := s.stream, room := s.file.room - s.buf.buf.length }
        (List.replicate lenWidth 0) (toInt64 pos) with ⟨r1, r2, r3⟩
    rw [hra] at hr
    simp only [] at hr
    subst hr
    rfl
  refine ⟨?_, ?_, hfull⟩
  · by_cases hroom : s.buf.buf.length ≤ s.file.accepts
    · exact ⟨_, hok hroom⟩
    · exact ⟨_, hfull (by omega)⟩
  · intro hroom
    have := hok hroom
    refine ⟨?_, ?_, ?_⟩
    · intro h
      rw [this, if_neg (by unfold maxInt at h; omega), if_neg (by omega)]
    · intro h1 h2
      rw [this, if_neg (by omega), if_pos h1]
    · intro h
      rw [this, if_pos h]

theorem Store.Read_past_end_witness :
    (freshFile.data.length ≤ maxInt ∧ newStore freshFile = .ok freshStore ∧
      freshStore.appendAll [hello] = some (freshStore.Append hello).1 ∧
      (freshStore.Append hello).1.size ≤ 13 ∧ (13 : Nat) < 18446744073709551616 ∧
      (freshStore.Append hello).1.buf.buf.length ≤ (freshStore.Append hello).1.file.accepts ∧
      13 + 8 ≤ maxInt) ∧
    ((freshStore.Append hello).1.Read 13).2 = .error Err.eof :=
  ⟨⟨by decide, rfl, by decide, by decide, by decide, by decide, by decide⟩,
    ((Store.Read_past_end freshFile freshStore (freshStore.Append hello).1 [hello] 13
      (by decide) rfl (by decide) (by decide) (by decide)).2.1 (by decide)).1 (by decide)⟩

/-- Claim C14 as stated fails in three ways.  After `Append("hello")` on an
empty store, `Read(2^63)` returns the negative-offset error and `Read(2^63 - 1)`
the invalid-argument error of the file, not end-of-data; and on a device that
accepts no more bytes, where the appended record is still in the buffer,
`Read(13)` returns the error of its flush. -/
theorem Store.Read_past_end_other_errors :
    Store.Append freshStore hello = ((freshStore.Append hello).1, 13, 0, none) ∧
    ((freshStore.Append hello).1.Read 9223372036854775808).2 = .error Err.negativeOffset ∧
    ((freshStore.Append hello).1.Read 9223372036854775807).2 = .error Err.invalidArgument ∧
    Store.Append { file := fullFile, buf := {}, size := 0 } hello
      = (bufferedOnFullDevice, 13, 0, none) ∧
    bufferedOnFullDevice.size ≤ 13 ∧
    (bufferedOnFullDevice.Read 13).2 = .error Err.noSpace := by
  decide

/-- Claim C15: whenever `Append` returns an error it returns 0 bytes written
and position 0, and the size of the store is what it was before the call. -/
theorem Store.Append_atomic (s s1 : Store) (p : List Byte) (n pos : Nat) (e : Err)
    (h : s.Append p = (s1, n, pos, some e)) :
    n = 0 ∧ pos = 0 ∧ s1.size = s.size := by
  have := Store.Append_err s s1 p n pos e h
  exact ⟨this.1, this.2.1, this.2.2.1⟩

theorem Store.Append_atomic_witness :
    fullDeviceStore.Append world = ((fullDeviceStore.Append world).1, 0, 0, some Err.noSpace) ∧
    ((0 : Nat) = 0 ∧ (0 : Nat) = 0 ∧ (fullDeviceStore.Append world).1.size = fullDeviceStore.size) :=
  ⟨by decide,
    Store.Append_atomic fullDeviceStore (fullDeviceStore.Append world).1 world 0 0 Err.noSpace
      (by decide)⟩

/-- Claim C16, amended: on a store reached from `newStore` by successful
appends, `ReadAt(b, off)` with `off ≥ 0` first flushes the buffer.  When that
flush succeeds every appended byte is in the file and, if `off + len(b)` is at
most the size, `b` is filled with the file bytes at `[off, off + len(b))` and
`len(b)` is returned with no error.  If fewer than `len(b)` bytes lie between
`off` and the end of the data, an error and a short count are returned
(`io.EOF` after a successful flush, or the invalid-argument error of the file
when `off + len(b)` passes `2^63 - 1`).  When the flush fails, its error is
returned and nothing is read. -/
theorem Store.ReadAt_raw (f : File) (s0 s : Store) (ps : List (List Byte)) (b : List Byte) (off : Int)
    (hf : f.data.length ≤ maxInt) (hnew : newStore f = .ok s0)
    (hall : s0.appendAll ps = some s) (hoff : 0 ≤ off) :
    (s.buf.buf.length ≤ s.file.accepts →
      (s.ReadAt b off).1.file.data = s.stream ∧ (s.ReadAt b off).1.buf.buf = [] ∧
      (s.ReadAt b off).1.size = s.size ∧
      (off.toNat + b.length ≤ s.size →
        (s.ReadAt b off).2.1 = (s.stream.drop off.toNat).take b.length ∧
        (s.ReadAt b off).2.2.1 = b.length ∧ (s.ReadAt b off).2.2.2 = none) ∧
      (s.size - off.toNat < b.length →
        (s.ReadAt b off).2.2.2
          = some (if off.toNat + b.length ≤ maxInt then Err.eof else Err.invalidArgument))) ∧
    (s.size - off.toNat < b.length →
      (s.ReadAt b off).2.2.1 < b.length ∧ (s.ReadAt b off).2.2.2 ≠ none) ∧
    (s.file.accepts < s.buf.buf.length → (s.ReadAt b off).2 = (b, 0, some Err.noSpace)) := by
  obtain ⟨hinv0, _, _, _⟩ := newStore_ok_inv hnew hf
  obtain ⟨hinv, _, _⟩ := Store.appendAll_spec ps s0 s hinv0 hall
  have hsz := hinv.size_eq
  have hfull : s.file.accepts < s.buf.buf.length →
      (s.ReadAt b off).2 = (b, 0, some Err.noSpace) :=
    fun h => Store.ReadAt_flush_err s b off _ (Store.flush_full s hinv h)
  have hgl : ((List.drop off.toNat s.stream).take b.length).length
      = min b.length (s.stream.length - off.toNat) := by
    rw [List.length_take, List.length_drop]
  have hok : s.buf.buf.length ≤ s.file.accepts →
      s.ReadAt b off =
        ({ s with buf := { buf := [], err := none },
                  file := { s.file with data := s.stream,
                                        room := s.file.room - s.buf.buf.length } },
          File.ReadAt { s.file with data := s.stream, room := s.file.room - s.buf.buf.length }
            b off) ∧ s.stream.length ≤ maxInt := by
    intro hroom
    obtain ⟨hfl, hmax⟩ := Store.flush_ok s hinv hroom
    refine ⟨?_, hmax⟩
    unfold Store.ReadAt
    rw [hfl]
  have hshort : s.buf.buf.length ≤ s.file.accepts → s.size - off.toNat < b.length →
      (s.ReadAt b off).2.2.1 < b.length ∧
      (s.ReadAt b off).2.2.2
        = some (if off.toNat + b.length ≤ maxInt then Err.eof else Err.invalidArgument) := by
    intro hroom h
    rw [(hok hroom).1]
    unfold File.ReadAt
    rw [if_neg (by omega), if_neg (by omega)]
    by_cases hm : maxInt < off.toNat + b.length
    · rw [if_pos hm, if_neg (by omega)]
      exact ⟨by show 0 < b.length; omega, rfl⟩
    · have hlt : ((List.drop off.toNat s.stream).take b.length).length < b.length := by
        rw [hgl]; omega
      rw [if_neg hm]
      simp only []
      rw [if_pos hlt, if_pos (show off.toNat + b.length ≤ maxInt by omega)]
      exact ⟨hlt, rfl⟩
  refine ⟨?_, ?_, hfull⟩
  · intro hroom
    obtain ⟨hra, hmax⟩ := hok hroom
    refine ⟨by rw [hra], by rw [hra], by rw [hra], ?_, fun h => (hshort hroom h).2⟩
    intro h
    rw [hra]
    unfold File.ReadAt
    rw [if_neg (by omega)]
    by_cases h0 : b.length = 0
    · rw [if_pos h0]
      have hbn : b = [] := List.length_eq_zero.mp h0
      subst hbn
      simp
    · have hge : ¬ ((List.drop off.toNat s.stream).take b.length).length < b.length := by
        rw [hgl]; omega
      rw [if_neg h0, if_neg (by omega)]
      simp only []
      rw [if_neg hge]
      refine ⟨rfl, ?_, rfl⟩
      show ((List.drop off.toNat s.stream).take b.length).length = b.length
      rw [hgl]; omega
  · intro h
    by_cases hroom : s.buf.buf.length ≤ s.file.accepts
    · have := hshort hroom h
      refine ⟨this.1, ?_⟩
      rw [this.2]
      simp
    · rw [hfull (by omega)]
      exact ⟨by show 0 < b.length; omega, by simp⟩

theorem Store.ReadAt_raw_witness :
    (freshFile.data.length ≤ maxInt ∧ newStore freshFile = .ok freshStore ∧
      freshStore.appendAll [hello] = some (freshStore.Append hello).1 ∧ (0 : Int) ≤ 8 ∧
      (freshStore.Append hello).1.buf.buf.length ≤ (freshStore.Append hello).1.file.accepts ∧
      (8 : Int).toNat + ([0, 0, 0, 0, 0] : List Byte).length
        ≤ (freshStore.Append hello).1.size) ∧
    (((freshStore.Append hello).1.ReadAt [0, 0, 0, 0, 0] 8).2.1
        = ((freshStore.Append hello).1.stream.drop (8 : Int).toNat).take
            ([0, 0, 0, 0, 0] : List Byte).length ∧
      ((freshStore.Append hello).1.ReadAt [0, 0, 0, 0, 0] 8).2.2.1
        = ([0, 0, 0, 0, 0] : List Byte).length ∧
      ((freshStore.Append hello).1.ReadAt [0, 0, 0, 0, 0] 8).2.2.2 = none) :=
  ⟨⟨by decide, rfl, by decide, by decide, by decide, by decide⟩,
    ((Store.ReadAt_raw freshFile freshStore (freshStore.Append hello).1 [hello]
      [0, 0, 0, 0, 0] 8 (by decide) rfl (by decide) (by decide)).1 (by decide)).2.2.2.1
      (by decide)⟩

/-- Claim C16 as stated fails on a device that accepts no more bytes: after
`Append("hello")`, with `8 + 5` at most the size 13, `ReadAt` of 5 bytes at
offset 8 returns 0 bytes and the error of its flush, and the appended bytes
have not reached the file. -/
theorem Store.ReadAt_on_full_device :
    Store.Append { file := fullFile, buf := {}, size := 0 } hello
      = (bufferedOnFullDevice, 13, 0, none) ∧
    (8 : Int).toNat + ([0, 0, 0, 0, 0] : List Byte).length ≤ bufferedOnFullDevice.size ∧
    (bufferedOnFullDevice.ReadAt [0, 0, 0, 0, 0] 8).2 = ([0, 0, 0, 0, 0], 0, some Err.noSpace) ∧
    (bufferedOnFullDevice.ReadAt [0, 0, 0, 0, 0] 8).1.file.data = [] := by
  decide

/-- Claim C18: on a store reached from `newStore` by any sequence of `Append`,
`Read` and `ReadAt` calls in which no write to the file has failed (the
writer, which keeps the first such failure, holds no error), size is the
length of the file plus the number of buffered bytes; and right after a
`Read` or `ReadAt` the buffer is empty and size is the length of the file. -/
theorem Store.size_counts_file_and_buffer (f : File) (s0 : Store) (hf : f.data.length ≤ maxInt)
    (hnew : newStore f = .ok s0) :
    (∀ cs : List StoreCall, (s0.afterAll cs).buf.err = none →
      (s0.afterAll cs).size
        = (s0.afterAll cs).file.data.length + (s0.afterAll cs).buf.buf.length) ∧
    (∀ (cs : List StoreCall) (c : StoreCall), c.isRead = true →
      (s0.afterAll (cs ++ [c])).buf.err = none →
      (s0.afterAll (cs ++ [c])).buf.buf = [] ∧
      (s0.afterAll (cs ++ [c])).size = (s0.afterAll (cs ++ [c])).file.data.length) := by
  obtain ⟨hinv0, _, _, _⟩ := newStore_ok_inv hnew hf
  constructor
  · intro cs h
    exact (Store.afterAll_inv cs s0 hinv0 h).2.2.2
  · intro cs c hc h
    have hsplit : s0.afterAll (cs ++ [c]) = (s0.afterAll cs).after c := by
      simp [Store.afterAll, List.foldl_append]
    rw [hsplit] at h ⊢
    have hprev : (s0.afterAll cs).buf.err = none := by
      cases he : (s0.afterAll cs).buf.err with
      | none => rfl
      | some e =>
        rw [Store.after_pending _ c e he] at h
        cases h
    have hinv := Store.afterAll_inv cs s0 hinv0 hprev
    have := Store.after_inv _ c hinv h
    have hb := this.2 hc
    refine ⟨hb, ?_⟩
    rw [this.1.2.2.2, hb]
    rfl

theorem Store.size_counts_file_and_buffer_witness :
    (freshFile.data.length ≤ maxInt ∧ newStore freshFile = .ok freshStore ∧
      (StoreCall.read 0).isRead = true ∧
      (freshStore.afterAll ([StoreCall.append hello, StoreCall.append world]
        ++ [StoreCall.read 0])).buf.err = none) ∧
    ((freshStore.afterAll ([StoreCall.append hello, StoreCall.append world]
        ++ [StoreCall.read 0])).buf.buf = [] ∧
      (freshStore.afterAll ([StoreCall.append hello, StoreCall.append world]
        ++ [StoreCall.read 0])).size
        = (freshStore.afterAll ([StoreCall.append hello, StoreCall.append world]
            ++ [StoreCall.read 0])).file.data.length) :=
  ⟨⟨by decide, rfl, by decide, by decide⟩,
    (Store.size_counts_file_and_buffer freshFile freshStore (by decide) rfl).2
      [StoreCall.append hello, StoreCall.append world] (StoreCall.read 0)
      (by decide) (by decide)⟩

end Proglog
